import Mathlib

/-!
Verification of the PDF rule-extraction core of the Agente_NTs repository.

The Python source (src/agente_nts/parse_pdf.py, src/agente_nts/utils.py) is
shallowly embedded here: strings are lists of characters, the regular
expressions of the source are compiled by hand into executable matchers with
the same scanning, greediness and word-boundary semantics as Python `re`
(without the MULTILINE flag, `^` anchors only at position 0; `re.split` with
capturing groups returns the groups as list elements), and the fallible
table-parsing path is modelled with `Except` (an out-of-range cell index in
the source raises `IndexError`, which the orchestrator catches).
-/

abbrev Str := List Char

/-- Python `str.lower` restricted to the alphabet relevant to this program:
ASCII plus the accented letters that appear in the source's patterns. -/
def pyLower (c : Char) : Char :=
  if c = 'Ç' then 'ç' else if c = 'Ã' then 'ã' else if c = 'Õ' then 'õ'
  else if c = 'Ó' then 'ó' else if c = 'Á' then 'á' else if c = 'À' then 'à'
  else if c = 'Â' then 'â' else if c = 'Ê' then 'ê' else if c = 'É' then 'é'
  else if c = 'Í' then 'í' else if c = 'Ú' then 'ú' else if c = 'Ô' then 'ô'
  else c.toLower

def lowerStr (s : Str) : Str := s.map pyLower

/-- The whitespace class of Python's `\s` (and `str.strip`), restricted to
the character alphabet this program manipulates. -/
def isPyWs (c : Char) : Bool :=
  c = ' ' || c = '\t' || c = '\n' || c = '\r' || c = '\u000B' || c = '\u000C'

/-- The horizontal-whitespace class `[ \t]` of `clean_space`'s first rewrite. -/
def isHWs (c : Char) : Bool := c = ' ' || c = '\t'

/-- Python's `\w` (word character) over the alphabet in use. -/
def isWordChar (c : Char) : Bool :=
  c.isAlphanum || c = '_' ||
    ['ç', 'Ç', 'ã', 'Ã', 'õ', 'Õ', 'ó', 'Ó', 'á', 'Á', 'à', 'À', 'â', 'Â',
      'ê', 'Ê', 'é', 'É', 'í', 'Í', 'ú', 'Ú', 'ô', 'Ô'].contains c

/-! ## utils.clean_space

The source applies, in order:
  `s.replace("\xa0", " ")`,
  `re.sub(r"[ \t]+", " ", s)`,
  `re.sub(r"\s*\n\s*", "\n", s)`  (each maximal whitespace run that contains
    a newline is replaced by a single newline — `\s` matches `\n` itself),
  `re.sub(r"\n{3,}", "\n\n", s)`,
  `s.strip()`.
Each pass is embedded as a single left-to-right scan. -/

def replNbsp (s : Str) : Str := s.map (fun c => if c = '\u00A0' then ' ' else c)

/-- One pass of `re.sub(r"[ \t]+", " ", s)`: `inRun` says whether we are in
the middle of a horizontal-whitespace run whose single `' '` was emitted. -/
def sub2go (inRun : Bool) : Str → Str
  | [] => []
  | c :: cs =>
    if isHWs c then (if inRun then sub2go true cs else ' ' :: sub2go true cs)
    else c :: sub2go false cs

/-- Emit a pending (reversed) whitespace run for `sub3go`: a run containing a
newline collapses to a single newline, any other run is kept verbatim. -/
def flushRun (pend : Str) : Str :=
  if pend.contains '\n' then ['\n'] else pend.reverse

/-- One pass of `re.sub(r"\s*\n\s*", "\n", s)`: `pend` is the current
whitespace run, reversed. -/
def sub3go (pend : Str) : Str → Str
  | [] => flushRun pend
  | c :: cs =>
    if isPyWs c then sub3go (c :: pend) cs
    else flushRun pend ++ c :: sub3go [] cs

/-- Emit a pending run of `k` newlines for `sub4go`. -/
def flushN (k : Nat) : Str :=
  if 3 ≤ k then ['\n', '\n'] else List.replicate k '\n'

/-- One pass of `re.sub(r"\n{3,}", "\n\n", s)`: `k` counts pending newlines. -/
def sub4go (k : Nat) : Str → Str
  | [] => flushN k
  | c :: cs =>
    if c = '\n' then sub4go (k + 1) cs
    else flushN k ++ c :: sub4go 0 cs

/-- Python `str.strip()` over the whitespace alphabet in use. -/
def stripStr (l : Str) : Str :=
  ((l.dropWhile isPyWs).reverse.dropWhile isPyWs).reverse

/-- `utils.clean_space`. `if not s: return ""` makes the empty (or null)
string map to the empty string before any rewriting. -/
def clean_space (s : Str) : Str :=
  if s.isEmpty then []
  else stripStr (sub4go 0 (sub3go [] (sub2go false (replNbsp s))))

/-! ## Substrings and adjacency predicates used by the statements -/

/-- `startsWithL pat l`: `pat` is a leading piece of `l`. -/
def startsWithL : Str → Str → Bool
  | [], _ => true
  | _ :: _, [] => false
  | p :: ps, c :: cs => p = c && startsWithL ps cs

/-- Python's `pat in l` substring test. -/
def hasSub (pat : Str) : Str → Bool
  | [] => pat.isEmpty
  | c :: cs => startsWithL pat (c :: cs) || hasSub pat cs

/-- `occursIn pat l`: `pat` occurs contiguously inside `l`. -/
def occursIn (pat l : Str) : Prop := ∃ pre post, l = pre ++ pat ++ post

/-- All adjacent pairs of the list satisfy `f`. -/
def chainB (f : Char → Char → Bool) : Str → Bool
  | [] => true
  | a :: r =>
    (match r.head? with
     | some b => f a b
     | none => true) && chainB f r

/-- The adjacency shape of a `clean_space` result: no two adjacent
horizontal-whitespace characters, and no newline adjacent to any
whitespace character (hence no blank lines). -/
def pairOK (a b : Char) : Bool :=
  !(isHWs a && isHWs b) && !(a = '\n' && isPyWs b) && !(isPyWs a && b = '\n')

/-- No two adjacent horizontal-whitespace characters (the shape left by the
`[ \t]+` collapse). -/
def goodHH (a b : Char) : Bool := !(isHWs a && isHWs b)

/-- No whitespace at either end. -/
def strippedB (l : Str) : Bool :=
  (match l.head? with
   | some c => !isPyWs c
   | none => true) &&
  (match l.getLast? with
   | some c => !isPyWs c
   | none => true)

/-! ## Regex building blocks (hand-compiled from the source's patterns) -/

/-- Consume a literal pattern case-insensitively (`re.I`); the pattern is
given lowercased.  Returns the remaining input on success. -/
def litCI : Str → Str → Option Str
  | [], l => some l
  | _ :: _, [] => none
  | p :: ps, c :: cs => if pyLower c = p then litCI ps cs else none

/-- Consume one literal character. -/
def litC (c : Char) : Str → Option Str
  | [] => none
  | x :: xs => if x = c then some xs else none

/-- `\s+` (greedy; the continuations in the source's patterns never start
with whitespace, so maximal munch is exact). -/
def wsPlus (l : Str) : Option Str :=
  let k := (l.takeWhile isPyWs).length
  if k = 0 then none else some (l.drop k)

/-- `p{n}` — exactly `n` characters of class `p`. -/
def exactRep (p : Char → Bool) (n : Nat) (l : Str) : Option Str :=
  if n ≤ (l.takeWhile p).length then some (l.drop n) else none

/-- `p+` — maximal munch (exact whenever the continuation cannot start with
a `p` character). -/
def plusRep (p : Char → Bool) (l : Str) : Option Str :=
  let k := (l.takeWhile p).length
  if k = 0 then none else some (l.drop k)

/-- Try `f (lo + d)`, `f (lo + d - 1)`, …, `f lo`, first success wins: the
backtracking order of a greedy counted repetition. -/
def descTry {α : Type} (f : Nat → Option α) (lo : Nat) : Nat → Option α
  | 0 => f lo
  | d + 1 =>
    match f (lo + d + 1) with
    | some a => some a
    | none => descTry f lo d

/-- Greedy `p{lo,hi}` over a character class, with full backtracking into
the continuation `k`. -/
def tryRep {α : Type} (p : Char → Bool) (lo hi : Nat) (k : Str → Option α)
    (l : Str) : Option α :=
  let avail := (l.takeWhile p).length
  let top := min hi avail
  if top < lo then none else descTry (fun n => k (l.drop n)) lo (top - lo)

def wordCharHead (l : Str) : Bool :=
  match l.head? with
  | some c => isWordChar c
  | none => false

/-! ## parse_pdf text-path detectors (`_parse_rv_text` internals) -/

/-- Match `tok` (lowercased literal ending in `.`) at this position with the
trailing `\b`: after a non-word `.` the boundary holds only when the next
character is a word character. -/
def matchTokWordAfter (tok : Str) (l : Str) : Bool :=
  match litCI tok l with
  | some (d :: _) => isWordChar d
  | _ => false

/-- `re.search(r"\b<tok>\.\b", p, re.I)` for a token starting with a word
character: scan left to right tracking whether the previous character is a
word character (the leading `\b`). -/
def bSearchAux (tok : Str) (prevW : Bool) : Str → Bool
  | [] => false
  | c :: cs =>
    (!prevW && matchTokWordAfter tok (c :: cs)) || bSearchAux tok (isWordChar c) cs

def obrigSearch (p : Str) : Bool := bSearchAux ("obrig.".toList) false p

def facultSearch (p : Str) : Bool := bSearchAux ("facult.".toList) false p

/-- `aplic` of a paragraph (`"Obrig."` / `"Facult."` / unset). -/
def aplicOf (p : Str) : Option Str :=
  if obrigSearch p then some ("Obrig.".toList)
  else if facultSearch p then some ("Facult.".toList)
  else none

/-- `\b(\d{3,4})\b` at this position (the leading `\b` is the scanner's
business): greedy 4 then 3 digits, trailing boundary after a digit needs a
non-word (or no) next character. -/
def msgAt (l : Str) : Option Str :=
  tryRep Char.isDigit 3 4
    (fun rest => if wordCharHead rest then none else some (l.take (l.length - rest.length))) l

def msgSearchAux (prevW : Bool) : Str → Option Str
  | [] => none
  | c :: cs =>
    match (if prevW then none else msgAt (c :: cs)) with
    | some g => some g
    | none => msgSearchAux (isWordChar c) cs

def msgOf (p : Str) : Str := (msgSearchAux false p).getD []

def isLetterDash (c : Char) : Bool := c.isAlpha || c = '-'

/-- `([A-Z]{1,3}\d{1,3}[A-Za-z\-]*\d*)` followed by `\b`, at this position,
with Python's greedy backtracking order. -/
def regraAt (l : Str) : Option Str :=
  tryRep Char.isUpper 1 3 (fun l1 =>
    tryRep Char.isDigit 1 3 (fun l2 =>
      tryRep isLetterDash 0 l2.length (fun l3 =>
        tryRep Char.isDigit 0 l3.length (fun l4 =>
          let tok := l.take (l.length - l4.length)
          let lastW :=
            match tok.getLast? with
            | some c => isWordChar c
            | none => false
          if lastW ≠ wordCharHead l4 then some tok else none) l3) l2) l1) l

def regraSearchAux (prevW : Bool) : Str → Option Str
  | [] => none
  | c :: cs =>
    match (if prevW then none else regraAt (c :: cs)) with
    | some g => some g
    | none => regraSearchAux (isWordChar c) cs

def regraOf (p : Str) : Str := (regraSearchAux false p).getD []

/-- `re.match(r"^([A-Z]{1,3}\d{1,3})", regra)`, applied only when `regra`
is non-empty. -/
def campoAt (l : Str) : Option Str :=
  tryRep Char.isUpper 1 3 (fun l1 =>
    tryRep Char.isDigit 1 3 (fun l2 => some (l.take (l.length - l2.length))) l1) l

def campoOf (regra : Str) : Str :=
  if regra.isEmpty then [] else (campoAt regra).getD []

/-- `\s*(.*)$` applied to `rem` (no MULTILINE: `$` holds at the end of the
string or just before one final newline).  Returns the group `(.*)`. -/
def dollarBody (rem : Str) : Option Str :=
  descTry (fun i =>
    let b := rem.drop i
    let core := if b.getLast? = some '\n' then b.dropLast else b
    if core.contains '\n' then none else some core)
    0 ((rem.takeWhile isPyWs).length)

/-- `Rejei(ç|c)ão:\s*(.*)$` (case-insensitive) at this position; returns
group 2. -/
def rejAt (l : Str) : Option Str :=
  (litCI ("rejei".toList) l).bind (fun r1 =>
    match r1 with
    | c :: cs =>
      if pyLower c = 'ç' || pyLower c = 'c' then (litCI ("ão:".toList) cs).bind dollarBody
      else none
    | [] => none)

def rejSearchAux : Str → Option Str
  | [] => none
  | c :: cs =>
    match rejAt (c :: cs) with
    | some g => some g
    | none => rejSearchAux cs

/-- `re.sub(r"^(Obrig\.|Facult\.)\s*", "", p, flags=re.I)` — `^` anchors at
position 0 only, so at most the leading occurrence is removed. -/
def stripAplicPre (p : Str) : Str :=
  match litCI ("obrig.".toList) p with
  | some rest => rest.dropWhile isPyWs
  | none =>
    match litCI ("facult.".toList) p with
    | some rest => rest.dropWhile isPyWs
    | none => p

/-- Description of a paragraph: the text after `Rejeição:` when that
pattern matches somewhere, otherwise the paragraph with a leading
`Obrig.`/`Facult.` stripped. -/
def descOf (p : Str) : Str :=
  match rejSearchAux p with
  | some d => d
  | none => stripAplicPre p

structure RvRec where
  campo : Str
  regra : Str
  aplic : Str
  msg : Str
  descricao : Str
deriving DecidableEq, Repr

/-- The body of `_parse_rv_text`'s paragraph loop, applied to the cleaned
paragraph `p` (the caller has already discarded empty `p`). -/
def processPara (p : Str) : Option RvRec :=
  let aplic := aplicOf p
  let msg := msgOf p
  let regra := regraOf p
  let campo := campoOf regra
  let desc := descOf p
  if !desc.isEmpty && (aplic.isSome || !msg.isEmpty || !regra.isEmpty) then
    some ⟨campo, regra, aplic.getD [], msg, desc⟩
  else none

/-- Split on `\n{2,}` (`re.split`): maximal runs of two or more newlines
separate the pieces; a single newline stays inside its piece. -/
def sn2go (cur : Str) (pend : Nat) : Str → List Str
  | [] =>
    if 2 ≤ pend then [cur.reverse, []]
    else [(List.replicate pend '\n' ++ cur).reverse]
  | c :: cs =>
    if c = '\n' then sn2go cur (pend + 1) cs
    else if 2 ≤ pend then cur.reverse :: sn2go [c] 0 cs
    else sn2go (c :: List.replicate pend '\n' ++ cur) 0 cs

def splitN2 (l : Str) : List Str := sn2go [] 0 l

/-- `RV_SECTION_RE.split(text, maxsplit=1)` in the source uses the pattern
`^\s*7\.\s*Regras\s+de\s+Valida(ç|c)(ão|ao)\s*` compiled WITHOUT
`re.MULTILINE`, so it can only match at position 0; and because the pattern
has capturing groups, `re.split` puts the captured groups into the result
list: `sec[1]`, which the source takes as the section body, is the first
group — the single character matching `(ç|c)` — not the text after the
header.  This function returns that first captured group when the pattern
matches. -/
def rvSectionGroup1 (text : Str) : Option Str :=
  (litCI ("7.".toList) (text.dropWhile isPyWs)).bind (fun r1 =>
  (litCI ("regras".toList) (r1.dropWhile isPyWs)).bind (fun r2 =>
  (wsPlus r2).bind (fun r3 =>
  (litCI ("de".toList) r3).bind (fun r4 =>
  (wsPlus r4).bind (fun r5 =>
  (litCI ("valida".toList) r5).bind (fun r6 =>
    match r6 with
    | c :: cs =>
      if pyLower c = 'ç' || pyLower c = 'c' then
        match litCI ("ão".toList) cs with
        | some _ => some [c]
        | none =>
          match litCI ("ao".toList) cs with
          | some _ => some [c]
          | none => none
      else none
    | [] => none))))))

/-- `_parse_rv_text` of the source, including its two defects: the section
pattern only matches at the start of the text, and the "body" it then
splits into paragraphs is `sec[1]`, the one-character group captured by
`(ç|c)`. -/
def parse_rv_text (text : Str) : List RvRec :=
  if text.isEmpty then []
  else
    match rvSectionGroup1 text with
    | none => []
    | some body =>
      (splitN2 body).filterMap (fun para =>
        let p := clean_space para
        if p.isEmpty then none else processPara p)

/-! ## parse_pdf table path (`_parse_rv_tables` internals) -/

/-- `" | ".join` of the lowercased cells followed by the two substring
tests of `_guess_has_rv_header`. -/
def joinBar : List Str → Str
  | [] => []
  | [x] => x
  | x :: y :: r => x ++ ' ' :: '|' :: ' ' :: joinBar (y :: r)

def guess_has_rv_header (row : List Str) : Bool :=
  let head := joinBar (row.map lowerStr)
  (hasSub ("aplic".toList) head && hasSub ("msg".toList) head) ||
    (hasSub ("descri".toList) head && hasSub ("regra".toList) head)

/-- The `for i, h in enumerate(header)` loop of the source's `find_idx`. -/
def find_idx_aux (pred : Str → Bool) : List Str → Nat → Option Nat
  | [], _ => none
  | h :: hs, i => if pred h then some i else find_idx_aux pred hs (i + 1)

/-- `find_idx` of the source: index of the first header cell whose
lowercased text contains one of the (lowercased) aliases. -/
def find_idx (header : List Str) (names : List Str) : Option Nat :=
  find_idx_aux (fun h => names.any (fun n => hasSub n (lowerStr h))) header 0

def regraNames : List Str := ["regra".toList, "rv".toList, "id".toList]
def campoNames : List Str := ["campo".toList, "id".toList]
def aplicNames : List Str := ["aplic".toList]
def msgNames : List Str := ["msg".toList, "cstat".toList]
def descNames : List Str :=
  ["descr".toList, "descrição".toList, "descricao".toList, "observ".toList]

structure HeaderIdx where
  regra : Option Nat
  campo : Option Nat
  aplic : Option Nat
  msg : Option Nat
  descricao : Option Nat
deriving DecidableEq, Repr

def headerIdxOf (header : List Str) : HeaderIdx :=
  ⟨find_idx header regraNames, find_idx header campoNames,
    find_idx header aplicNames, find_idx header msgNames,
    find_idx header descNames⟩

/-- `cells[idx]` — raises `IndexError` (here: `Except.error`) when the
mapped index is outside the padded row. -/
def getCell (cells : List Str) : Option Nat → Except Unit Str
  | none => Except.ok []
  | some i =>
    if h : i < cells.length then Except.ok (cells.get ⟨i, h⟩) else Except.error ()

/-- One data row of `_parse_rv_tables`' row loop: clean every cell, append
six empty cells, extract the mapped fields, and keep the row only when some
field is non-empty and the (re-)cleaned description has length at least 3. -/
def processRow (hi : HeaderIdx) (r : List Str) : Except Unit (Option RvRec) :=
  let cells := r.map clean_space ++ List.replicate 6 []
  match getCell cells hi.campo, getCell cells hi.regra, getCell cells hi.aplic,
      getCell cells hi.msg, getCell cells hi.descricao with
  | Except.ok campo, Except.ok regra, Except.ok aplic, Except.ok msg,
      Except.ok descricao =>
    if (!campo.isEmpty || !regra.isEmpty || !aplic.isEmpty || !msg.isEmpty
          || !descricao.isEmpty)
        && decide (3 ≤ (clean_space descricao).length) then
      Except.ok (some ⟨campo, regra, aplic, msg, descricao⟩)
    else
      Except.ok none
  | _, _, _, _, _ => Except.error ()

/-- Field extraction as the SPEC words it: the mapped cell by index, the
empty string when the field is unmapped. -/
def specGet (cells : List Str) : Option Nat → Str
  | none => []
  | some j => cells.getD j []

/-- The row-processing step of 4.4 exactly as the SPEC words it: pad the row
to AT LEAST 6 cells with empty strings, extract each mapped field by its
index (empty when unmapped), normalize, and keep the row only when some
field is non-empty and the normalized description has length at least 3. -/
def specRowOf (hi : HeaderIdx) (r : List Str) : Option RvRec :=
  let cells := r.map clean_space ++ List.replicate (6 - r.length) []
  if (!(specGet cells hi.campo).isEmpty || !(specGet cells hi.regra).isEmpty ||
      !(specGet cells hi.aplic).isEmpty || !(specGet cells hi.msg).isEmpty ||
      !(specGet cells hi.descricao).isEmpty)
      && decide (3 ≤ (clean_space (specGet cells hi.descricao)).length) then
    some ⟨specGet cells hi.campo, specGet cells hi.regra,
      specGet cells hi.aplic, specGet cells hi.msg,
      specGet cells hi.descricao⟩
  else none

def processRows (hi : HeaderIdx) : List (List Str) → Except Unit (List RvRec)
  | [] => Except.ok []
  | r :: rs =>
    match processRow hi r with
    | Except.error e => Except.error e
    | Except.ok o =>
      match processRows hi rs with
      | Except.error e => Except.error e
      | Except.ok rest =>
        Except.ok
          (match o with
           | some x => x :: rest
           | none => rest)

/-- One table of `_parse_rv_tables`: tables with fewer than 2 rows are
skipped; the header is the first of the first 3 rows recognized by
`guess_has_rv_header`; the data rows are `tbl[1:]` — every row after the
FIRST row, regardless of where the header was found. -/
def parse_rv_table (tbl : List (List Str)) : Except Unit (List RvRec) :=
  if tbl.length < 2 then Except.ok []
  else
    match (tbl.take 3).find? guess_has_rv_header with
    | none => Except.ok []
    | some hrow => processRows (headerIdxOf (hrow.map clean_space)) (tbl.drop 1)

/-- `_parse_rv_tables` over the list of all tables extracted from all pages
(in page order); an exception anywhere aborts the whole call. -/
def parse_rv_tables : List (List (List Str)) → Except Unit (List RvRec)
  | [] => Except.ok []
  | t :: ts =>
    match parse_rv_table t with
    | Except.error e => Except.error e
    | Except.ok a =>
      match parse_rv_tables ts with
      | Except.error e => Except.error e
      | Except.ok b => Except.ok (a ++ b)

/-! ## `_extract_versions_block` -/

/-- Python `str.splitlines` over the line-break characters in use
(`\n`, `\r`, `\r\n`, `\x0b`, `\x0c`); no empty final piece after a
trailing break. -/
def slGo (cur : Str) : Str → List Str
  | [] => [cur.reverse]
  | c :: cs =>
    if c = '\r' then
      cur.reverse ::
        (match cs with
         | [] => []
         | d :: ds =>
           if d = '\n' then
             (match ds with
              | [] => []
              | _ :: _ => slGo [] ds)
           else slGo [] (d :: ds))
    else if c = '\n' || c = '\u000B' || c = '\u000C' then
      cur.reverse ::
        (match cs with
         | [] => []
         | _ :: _ => slGo [] cs)
    else slGo (c :: cur) cs

def splitLinesPy (l : Str) : List Str :=
  match l with
  | [] => []
  | _ :: _ => slGo [] l

/-- `Controle\s+de\s+Vers(ões|oes)` (case-insensitive) at this position;
returns the input remaining after the match (`text[m.end():]`). -/
def controlVerAt (l : Str) : Option Str :=
  (litCI ("controle".toList) l).bind (fun r1 =>
  (wsPlus r1).bind (fun r2 =>
  (litCI ("de".toList) r2).bind (fun r3 =>
  (wsPlus r3).bind (fun r4 =>
  (litCI ("vers".toList) r4).bind (fun r5 =>
    match litCI ("ões".toList) r5 with
    | some r6 => some r6
    | none => litCI ("oes".toList) r5)))))

/-- `Hist(ó|o)rico\s+de\s+Altera(ç|c)(ões|oes)\s*/\s*Cronograma`
(case-insensitive) at this position; returns the remaining input. -/
def histAt (l : Str) : Option Str :=
  (litCI ("hist".toList) l).bind (fun r1 =>
  (match litCI ("ó".toList) r1 with
   | some r => some r
   | none => litCI ("o".toList) r1).bind (fun r2 =>
  (litCI ("rico".toList) r2).bind (fun r3 =>
  (wsPlus r3).bind (fun r4 =>
  (litCI ("de".toList) r4).bind (fun r5 =>
  (wsPlus r5).bind (fun r6 =>
  (litCI ("altera".toList) r6).bind (fun r7 =>
  (match litCI ("ç".toList) r7 with
   | some r => some r
   | none => litCI ("c".toList) r7).bind (fun r8 =>
  (match litCI ("ões".toList) r8 with
   | some r => some r
   | none => litCI ("oes".toList) r8).bind (fun r9 =>
  (litC '/' (r9.dropWhile isPyWs)).bind (fun r10 =>
  (litCI ("cronograma".toList) (r10.dropWhile isPyWs)).map (fun r11 => r11)))))))))))

/-- `re.search`: try the matcher at every position, leftmost success wins;
the result is the text after the match end. -/
def searchTail (matchAt : Str → Option Str) : Str → Option Str
  | [] => matchAt []
  | c :: cs =>
    match matchAt (c :: cs) with
    | some r => some r
    | none => searchTail matchAt cs

/-- `VERSAO_LINHA_RE.match(ln)`:
`^\s*(\d+\.\d+)\s+(\d{2}/\d{4}|[A-Za-z]+/\d{4}|Março/\d{4}|Junho/\d{4}|Julho/\d{4})\s+.*`
(case-insensitive); returns group 1 on success.  A failing alternative falls
through to the next one, including failure of the `\s+` that follows the
group. -/
def versaoLineMatch (ln : Str) : Option Str :=
  let l := ln.dropWhile isPyWs
  (plusRep Char.isDigit l).bind (fun r1 =>
  (litC '.' r1).bind (fun r2 =>
  (plusRep Char.isDigit r2).bind (fun r3 =>
    let g1 := l.take (l.length - r3.length)
    (wsPlus r3).bind (fun r4 =>
      let afterB := fun (r : Str) => if (wsPlus r).isSome then some g1 else none
      let b1 := (exactRep Char.isDigit 2 r4).bind (fun x =>
        (litC '/' x).bind (exactRep Char.isDigit 4))
      let b2 := (plusRep Char.isAlpha r4).bind (fun x =>
        (litC '/' x).bind (exactRep Char.isDigit 4))
      let b3 := (litCI ("março/".toList) r4).bind (exactRep Char.isDigit 4)
      let b4 := (litCI ("junho/".toList) r4).bind (exactRep Char.isDigit 4)
      let b5 := (litCI ("julho/".toList) r4).bind (exactRep Char.isDigit 4)
      match b1.bind afterB with
      | some g => some g
      | none =>
        match b2.bind afterB with
        | some g => some g
        | none =>
          match b3.bind afterB with
          | some g => some g
          | none =>
            match b4.bind afterB with
            | some g => some g
            | none => b5.bind afterB))))

/-- `\b(\d{2}/\d{2}/\d{4})\b` at this position (leading `\b` handled by the
caller); consumes exactly 10 characters on success. -/
def dateAt (l : Str) : Option Str :=
  (exactRep Char.isDigit 2 l).bind (fun r1 =>
  (litC '/' r1).bind (fun r2 =>
  (exactRep Char.isDigit 2 r2).bind (fun r3 =>
  (litC '/' r3).bind (fun r4 =>
  (exactRep Char.isDigit 4 r4).bind (fun r5 =>
    if wordCharHead r5 then none else some (l.take (l.length - r5.length)))))))

/-- `DATE_DDMMYYYY.findall`: non-overlapping left-to-right scan; after a
match the scan resumes past its 10 characters. -/
def datesGo (skip : Nat) (prevW : Bool) : Str → List Str
  | [] => []
  | c :: cs =>
    match skip with
    | n + 1 => datesGo n true cs
    | 0 =>
      match (if prevW then none else dateAt (c :: cs)) with
      | some d => d :: datesGo 9 true cs
      | none => datesGo 0 (isWordChar c) cs

def findDates (l : Str) : List Str := datesGo 0 false l

def joinNL : List Str → Str
  | [] => []
  | [x] => x
  | x :: y :: r => x ++ '\n' :: joinNL (y :: r)

/-- `_extract_versions_block`: (versao, dt_homolog, dt_producao). -/
def extract_versions_block (text : Str) :
    Option Str × Option Str × Option Str :=
  let versao :=
    match searchTail controlVerAt text with
    | none => none
    | some tail =>
      (((splitLinesPy tail).take 120).filterMap
        (fun ln => versaoLineMatch (stripStr ln))).getLast?
  match searchTail histAt text with
  | none => (versao, none, none)
  | some tail =>
    let datas := findDates (joinNL ((splitLinesPy tail).take 250))
    if 2 ≤ datas.length then
      (versao, datas[datas.length - 2]?, datas.getLast?)
    else (versao, none, none)

/-! ## `extract_rules_from_pdf` (orchestration) -/

structure NTRow where
  nt_titulo : Str
  nt_versao : Option Str
  publicada_em : Option Str
  implantacao_homolog : Option Str
  implantacao_producao : Option Str
  grupo : Option Str
  campo : Option Str
  regra : Option Str
  aplic : Option Str
  msg : Option Str
  descricao : Option Str
deriving DecidableEq, Repr

/-- `extract_rules_from_pdf`.  PDF reading is I/O: the linear text and the
extracted tables are parameters; `tablesRes` is `Except.error` when opening
the document raises (the `try/except` around `_parse_rv_tables` then leaves
`table_rvs` empty). -/
def extract_rules_from_pdf (tablesRes : Except Unit (List (List (List Str))))
    (text : Str) (nt_titulo : Str) (publicada_em : Option Str) : List NTRow :=
  let vb := extract_versions_block text
  let table_rvs :=
    match tablesRes with
    | Except.error _ => []
    | Except.ok ts =>
      match parse_rv_tables ts with
      | Except.error _ => []
      | Except.ok l => l
  let text_rvs := if table_rvs.isEmpty then parse_rv_text text else []
  let rvs := if table_rvs.isEmpty then text_rvs else table_rvs
  if rvs.isEmpty then
    [⟨nt_titulo, vb.1, publicada_em, vb.2.1, vb.2.2,
      none, none, none, none, none, none⟩]
  else
    rvs.map (fun rv =>
      ⟨nt_titulo, vb.1, publicada_em, vb.2.1, vb.2.2, none,
        some (clean_space rv.campo), some (clean_space rv.regra),
        some (clean_space rv.aplic), some (clean_space rv.msg),
        some (clean_space rv.descricao)⟩)

/-! ## Chain infrastructure -/

theorem chainB_nil (f : Char → Char → Bool) : chainB f [] = true := rfl

theorem chainB_tail {f : Char → Char → Bool} {a : Char} {r : Str}
    (h : chainB f (a :: r) = true) : chainB f r = true := by
  simp only [chainB, Bool.and_eq_true] at h
  exact h.2

theorem chainB_cons_of {f : Char → Char → Bool} {a : Char} {r : Str}
    (h1 : ∀ b, r.head? = some b → f a b = true) (h2 : chainB f r = true) :
    chainB f (a :: r) = true := by
  simp only [chainB, Bool.and_eq_true]
  refine ⟨?_, h2⟩
  cases hr : r.head? with
  | none => simp
  | some b => simpa using h1 b hr

theorem chainB_head {f : Char → Char → Bool} {a b : Char} {r : Str}
    (h : chainB f (a :: r) = true) (hb : r.head? = some b) : f a b = true := by
  simp only [chainB, Bool.and_eq_true] at h
  have := h.1
  rw [hb] at this
  simpa using this

theorem chainB_append_right {f : Char → Char → Bool} {xs ys : Str}
    (h : chainB f (xs ++ ys) = true) : chainB f ys = true := by
  induction xs with
  | nil => exact h
  | cons a xs ih => exact ih (chainB_tail h)

theorem chainB_append_left {f : Char → Char → Bool} {xs ys : Str}
    (h : chainB f (xs ++ ys) = true) : chainB f xs = true := by
  induction xs with
  | nil => rfl
  | cons a xs ih =>
    refine chainB_cons_of ?_ (ih (chainB_tail h))
    intro b hb
    refine chainB_head h ?_
    cases xs with
    | nil => simp at hb
    | cons x xs' =>
      simp only [List.head?_cons, Option.some.injEq] at hb
      simp [hb]

theorem chainB_append_boundary {f : Char → Char → Bool} :
    ∀ {xs : Str} {ys : Str} {a b : Char}, chainB f (xs ++ ys) = true →
      xs.getLast? = some a → ys.head? = some b → f a b = true := by
  intro xs
  induction xs with
  | nil => intro ys a b _ ha _; simp at ha
  | cons x xs' ih =>
    intro ys a b h ha hb
    cases xs' with
    | nil =>
      simp only [List.getLast?_singleton, Option.some.injEq] at ha
      subst ha
      exact chainB_head h (by cases ys with
        | nil => simp at hb
        | cons y ys' => simpa using hb)
    | cons z zs =>
      rw [List.getLast?_cons_cons] at ha
      exact ih (chainB_tail h) ha hb

theorem chainB_append_of {f : Char → Char → Bool} :
    ∀ {xs ys : Str}, chainB f xs = true → chainB f ys = true →
      (∀ a b, xs.getLast? = some a → ys.head? = some b → f a b = true) →
      chainB f (xs ++ ys) = true := by
  intro xs
  induction xs with
  | nil => intro ys _ h2 _; exact h2
  | cons x xs' ih =>
    intro ys h1 h2 h3
    cases xs' with
    | nil =>
      refine chainB_cons_of ?_ h2
      intro b hb
      exact h3 x b rfl hb
    | cons z zs =>
      refine chainB_cons_of ?_ (ih (chainB_tail h1) h2
        (fun a b ha hb => h3 a b (by rw [List.getLast?_cons_cons]; exact ha) hb))
      intro b hb
      have hb' : b = z := by
        simp only [List.append_eq, List.cons_append, List.head?_cons,
          Option.some.injEq] at hb
        exact hb.symm
      subst hb'
      exact chainB_head h1 rfl

theorem chainB_impl_mem {f g : Char → Char → Bool} :
    ∀ l : Str, (∀ a b, a ∈ l → b ∈ l → f a b = true → g a b = true) →
      chainB f l = true → chainB g l = true := by
  intro l
  induction l with
  | nil => intro _ _; rfl
  | cons a r ih =>
    intro hab h
    refine chainB_cons_of ?_ (ih (fun x y hx hy => hab x y (List.mem_cons_of_mem _ hx)
      (List.mem_cons_of_mem _ hy)) (chainB_tail h))
    intro b hb
    have hbmem : b ∈ r := by
      cases r with
      | nil => simp at hb
      | cons x xs =>
        simp only [List.head?_cons, Option.some.injEq] at hb
        simp [hb]
    exact hab a b (List.mem_cons_self _ _) (List.mem_cons_of_mem _ hbmem)
      (chainB_head h hb)

theorem chainB_dropWhile {f : Char → Char → Bool} (p : Char → Bool) :
    ∀ l : Str, chainB f l = true → chainB f (l.dropWhile p) = true := by
  intro l
  induction l with
  | nil => intro h; exact h
  | cons a r ih =>
    intro h
    rw [List.dropWhile_cons]
    by_cases hp : p a = true
    · simp only [hp, if_true]
      exact ih (chainB_tail h)
    · simp only [Bool.not_eq_true] at hp
      simp only [hp]
      simpa using h

theorem pairOK_symm (a b : Char) : pairOK a b = pairOK b a := by
  rw [Bool.eq_iff_iff]
  simp only [pairOK, Bool.and_eq_true, Bool.not_eq_true', Bool.and_eq_false_iff]
  tauto

theorem chainB_reverse_symm {f : Char → Char → Bool}
    (hsym : ∀ a b, f a b = f b a) :
    ∀ l : Str, chainB f l = true → chainB f l.reverse = true := by
  intro l
  induction l with
  | nil => intro h; exact h
  | cons a r ih =>
    intro h
    rw [List.reverse_cons]
    refine chainB_append_of (ih (chainB_tail h)) rfl ?_
    intro x b hx hb
    simp only [List.head?_cons, Option.some.injEq] at hb
    subst hb
    rw [List.getLast?_reverse] at hx
    rw [hsym]
    exact chainB_head h hx

/-! ## Shape of `clean_space` results -/

theorem sub2go_chars (l : Str) :
    ∀ (b : Bool), ∀ c ∈ sub2go b l, c = ' ' ∨ (c ∈ l ∧ isHWs c = false) := by
  induction l with
  | nil => intro b c hc; simp [sub2go] at hc
  | cons a cs ih =>
    intro b c hc
    by_cases ha : isHWs a = true
    · cases b with
      | true =>
        simp only [sub2go, ha, if_true] at hc
        rcases ih true c hc with h | h
        · exact Or.inl h
        · exact Or.inr ⟨List.mem_cons_of_mem _ h.1, h.2⟩
      | false =>
        simp [sub2go, ha] at hc
        rcases hc with h | h
        · exact Or.inl h
        · rcases ih true c h with h' | h'
          · exact Or.inl h'
          · exact Or.inr ⟨List.mem_cons_of_mem _ h'.1, h'.2⟩
    · simp only [Bool.not_eq_true] at ha
      simp only [sub2go, ha, Bool.false_eq_true, if_false, List.mem_cons] at hc
      rcases hc with h | h
      · subst h; exact Or.inr ⟨List.mem_cons_self _ _, ha⟩
      · rcases ih false c h with h' | h'
        · exact Or.inl h'
        · exact Or.inr ⟨List.mem_cons_of_mem _ h'.1, h'.2⟩

theorem sub2go_true_eq_false {cs : Str}
    (h : ∀ c, cs.head? = some c → isHWs c = false) :
    sub2go true cs = sub2go false cs := by
  cases cs with
  | nil => rfl
  | cons d ds =>
    have hd : isHWs d = false := h d rfl
    simp [sub2go, hd]

theorem sub2go_true_head (l : Str) :
    ∀ c, (sub2go true l).head? = some c → isHWs c = false := by
  induction l with
  | nil => intro c hc; simp [sub2go] at hc
  | cons a cs ih =>
    intro c hc
    by_cases ha : isHWs a = true
    · simp only [sub2go, ha, if_true] at hc
      exact ih c hc
    · simp only [Bool.not_eq_true] at ha
      simp only [sub2go, ha, Bool.false_eq_true, if_false, List.head?_cons,
        Option.some.injEq] at hc
      subst hc; exact ha

theorem sub2go_chain (l : Str) : ∀ b : Bool, chainB goodHH (sub2go b l) = true := by
  induction l with
  | nil => intro b; rfl
  | cons a cs ih =>
    intro b
    by_cases ha : isHWs a = true
    · cases b with
      | true => simpa [sub2go, ha] using ih true
      | false =>
        simp only [sub2go, ha, if_true]
        refine chainB_cons_of ?_ (ih true)
        intro d hd
        have := sub2go_true_head cs d hd
        simp [goodHH, this]
    · simp only [Bool.not_eq_true] at ha
      simp only [sub2go, ha, Bool.false_eq_true, if_false]
      refine chainB_cons_of ?_ (ih false)
      intro d _
      simp [goodHH, ha]

theorem flushRun_nil : flushRun [] = [] := rfl

theorem flushRun_mem (pend : Str) : ∀ c ∈ flushRun pend, c = '\n' ∨ c ∈ pend := by
  intro c hc
  unfold flushRun at hc
  by_cases h : pend.contains '\n' = true
  · simp only [h, if_true, List.mem_singleton] at hc
    exact Or.inl hc
  · simp only [Bool.not_eq_true] at h
    simp only [h, Bool.false_eq_true, if_false, List.mem_reverse] at hc
    exact Or.inr hc

theorem flushRun_of_no_nl {pend : Str} (h : '\n' ∉ pend) :
    flushRun pend = pend.reverse := by
  have hc : pend.contains '\n' = false := by
    by_contra hcc
    simp only [Bool.not_eq_false] at hcc
    exact h (List.elem_iff.mp hcc)
  unfold flushRun
  rw [hc]
  simp

theorem sub3go_mem (l : Str) :
    ∀ pend : Str, ∀ c ∈ sub3go pend l, c = '\n' ∨ c ∈ pend ∨ c ∈ l := by
  induction l with
  | nil =>
    intro pend c hc
    simp only [sub3go] at hc
    rcases flushRun_mem pend c hc with h | h
    · exact Or.inl h
    · exact Or.inr (Or.inl h)
  | cons a cs ih =>
    intro pend c hc
    by_cases ha : isPyWs a = true
    · simp only [sub3go, ha, if_true] at hc
      rcases ih (a :: pend) c hc with h | h | h
      · exact Or.inl h
      · simp only [List.mem_cons] at h
        rcases h with h | h
        · exact Or.inr (Or.inr (by simp [h]))
        · exact Or.inr (Or.inl h)
      · exact Or.inr (Or.inr (List.mem_cons_of_mem _ h))
    · simp only [Bool.not_eq_true] at ha
      simp only [sub3go, ha, Bool.false_eq_true, if_false, List.mem_append,
        List.mem_cons] at hc
      rcases hc with h | h | h
      · rcases flushRun_mem pend c h with h' | h'
        · exact Or.inl h'
        · exact Or.inr (Or.inl h')
      · exact Or.inr (Or.inr (by simp [h]))
      · rcases ih [] c h with h' | h' | h'
        · exact Or.inl h'
        · simp at h'
        · exact Or.inr (Or.inr (List.mem_cons_of_mem _ h'))

theorem isPyWs_of_isHWs {a : Char} (h : isHWs a = true) : isPyWs a = true := by
  simp only [isHWs, Bool.or_eq_true, decide_eq_true_eq] at h
  rcases h with h | h <;> simp [isPyWs, h]

theorem ne_nl_of_nonws {a : Char} (ha : isPyWs a = false) : a ≠ '\n' := by
  intro h
  subst h
  simp [isPyWs] at ha

theorem pairOK_of_goodHH {a b : Char} (h : goodHH a b = true) (ha : a ≠ '\n')
    (hb : b ≠ '\n') : pairOK a b = true := by
  simp only [goodHH] at h
  simp [pairOK, h, ha, hb]

theorem pairOK_of_left_nonws {a : Char} (ha : isPyWs a = false) (b : Char) :
    pairOK a b = true := by
  have h1 : isHWs a = false := by
    by_contra hh
    simp only [Bool.not_eq_false] at hh
    rw [isPyWs_of_isHWs hh] at ha
    exact absurd ha (by simp)
  simp [pairOK, h1, ha, ne_nl_of_nonws ha]

theorem pairOK_of_right_nonws (a : Char) {b : Char} (hb : isPyWs b = false) :
    pairOK a b = true := by
  have h1 : isHWs b = false := by
    by_contra hh
    simp only [Bool.not_eq_false] at hh
    rw [isPyWs_of_isHWs hh] at hb
    exact absurd hb (by simp)
  simp [pairOK, h1, hb, ne_nl_of_nonws hb]

theorem pairOK_ws_nl_false {p : Char} (hp : isPyWs p = true) :
    pairOK p '\n' = false := by
  simp [pairOK, hp]

theorem pairOK_nl_ws_false {p : Char} (hp : isPyWs p = true) :
    pairOK '\n' p = false := by
  simp [pairOK, hp]

theorem chainB_flushRun (pend : Str) (hp : ∀ c ∈ pend, isPyWs c = true)
    (h : chainB goodHH pend.reverse = true) :
    chainB pairOK (flushRun pend) = true := by
  by_cases hn : '\n' ∈ pend
  · have : flushRun pend = ['\n'] := by
      have hcc : pend.contains '\n' = true := by simpa using hn
      unfold flushRun
      rw [hcc]
      simp
    rw [this]
    rfl
  · rw [flushRun_of_no_nl hn]
    refine chainB_impl_mem pend.reverse ?_ h
    intro a b ha hb hg
    rw [List.mem_reverse] at ha hb
    exact pairOK_of_goodHH hg (fun hh => hn (hh ▸ ha)) (fun hh => hn (hh ▸ hb))

theorem sub3go_chain (l : Str) :
    ∀ pend : Str, (∀ c ∈ pend, isPyWs c = true) →
      chainB goodHH (pend.reverse ++ l) = true →
      chainB pairOK (sub3go pend l) = true := by
  induction l with
  | nil =>
    intro pend hp h
    simp only [List.append_nil] at h
    exact chainB_flushRun pend hp h
  | cons c cs ih =>
    intro pend hp h
    by_cases hc : isPyWs c = true
    · simp only [sub3go, hc, if_true]
      refine ih (c :: pend) ?_ ?_
      · intro x hx
        rcases List.mem_cons.mp hx with hx | hx
        · subst hx; exact hc
        · exact hp x hx
      · rw [List.reverse_cons, List.append_assoc]
        simpa using h
    · simp only [Bool.not_eq_true] at hc
      simp only [sub3go, hc, Bool.false_eq_true, if_false]
      have htail : chainB goodHH cs = true :=
        chainB_tail (chainB_append_right h)
      refine chainB_append_of
        (chainB_flushRun pend hp (chainB_append_left h)) ?_ ?_
      · refine chainB_cons_of ?_ (ih [] (by simp) (by simpa using htail))
        intro b _
        exact pairOK_of_left_nonws hc b
      · intro a b _ hb
        simp only [List.head?_cons, Option.some.injEq] at hb
        subst hb
        exact pairOK_of_right_nonws a hc

theorem sub3go_id (l : Str) :
    ∀ pend : Str, (∀ c ∈ pend, isPyWs c = true) →
      flushRun pend = pend.reverse →
      chainB pairOK (pend.reverse ++ l) = true →
      sub3go pend l = pend.reverse ++ l := by
  induction l with
  | nil =>
    intro pend _ h1 _
    simp only [sub3go, List.append_nil]
    exact h1
  | cons c cs ih =>
    intro pend hp h1 h2
    by_cases hc : isPyWs c = true
    · simp only [sub3go, hc, if_true]
      by_cases hcn : c = '\n'
      · subst hcn
        have hpend : pend = [] := by
          cases pend with
          | nil => rfl
          | cons p ps =>
            have hlast : (p :: ps).reverse.getLast? = some p := by
              rw [List.getLast?_reverse]; rfl
            have hb := chainB_append_boundary h2 hlast (by rfl :
              (('\n' :: cs).head? = some '\n'))
            rw [pairOK_ws_nl_false (hp p (List.mem_cons_self _ _))] at hb
            exact absurd hb (by simp)
        subst hpend
        have hrec := ih ['\n'] (by simp [isPyWs])
          (by rfl) (by simpa using h2)
        simpa using hrec
      · have hnp : '\n' ∉ pend := by
          intro hn
          have hfr : flushRun pend = ['\n'] := by
            have hcc : pend.contains '\n' = true := by simpa using hn
            unfold flushRun
            rw [hcc]
            simp
          have hpe : pend = ['\n'] := by
            have := h1.symm.trans hfr
            have h3 : pend.reverse.reverse = (['\n'] : Str).reverse := by rw [this]
            simpa using h3
          subst hpe
          have hb := chainB_append_boundary h2
            (by rfl : ((['\n'] : Str).reverse.getLast? = some '\n'))
            (by rfl : ((c :: cs).head? = some c))
          rw [pairOK_nl_ws_false hc] at hb
          exact absurd hb (by simp)
        have h1' : flushRun (c :: pend) = (c :: pend).reverse :=
          flushRun_of_no_nl (by
            intro hmem
            rcases List.mem_cons.mp hmem with hx | hx
            · exact hcn hx.symm
            · exact hnp hx)
        have hrec := ih (c :: pend)
          (by
            intro x hx
            rcases List.mem_cons.mp hx with hx | hx
            · subst hx; exact hc
            · exact hp x hx)
          h1'
          (by rw [List.reverse_cons, List.append_assoc]; simpa using h2)
        rw [hrec, List.reverse_cons, List.append_assoc]
        simp
    · simp only [Bool.not_eq_true] at hc
      simp only [sub3go, hc, Bool.false_eq_true, if_false]
      rw [h1, ih [] (by simp) rfl (by simpa using chainB_tail (chainB_append_right h2))]
      simp

theorem sub4go_one {cs : Str} (h : cs.head? ≠ some '\n') :
    sub4go 1 cs = '\n' :: sub4go 0 cs := by
  cases cs with
  | nil => rfl
  | cons d ds =>
    have hd : ¬(d = '\n') := fun hh => h (by simp [hh])
    simp [sub4go, hd, flushN]

theorem sub4go_id (l : Str) (h : chainB pairOK l = true) : sub4go 0 l = l := by
  induction l with
  | nil => rfl
  | cons c cs ih =>
    by_cases hc : c = '\n'
    · subst hc
      have hcs : cs.head? ≠ some '\n' := by
        intro hh
        have hb := chainB_head h hh
        rw [pairOK_nl_ws_false (by decide)] at hb
        exact absurd hb (by simp)
      have h0 : sub4go 0 ('\n' :: cs) = sub4go 1 cs := by simp [sub4go]
      rw [h0, sub4go_one hcs, ih (chainB_tail h)]
    · simp only [sub4go, hc, if_false, flushN]
      simp only [show ¬(3 ≤ 0) by decide, if_false, List.replicate_zero,
        List.nil_append, List.cons.injEq, true_and]
      exact ih (chainB_tail h)

theorem head?_dropWhile_ws (p : Char → Bool) :
    ∀ l : Str, ∀ c, (l.dropWhile p).head? = some c → p c = false := by
  intro l
  induction l with
  | nil => intro c hc; simp at hc
  | cons a cs ih =>
    intro c hc
    rw [List.dropWhile_cons] at hc
    by_cases hp : p a = true
    · simp only [hp, if_true] at hc
      exact ih c hc
    · simp only [Bool.not_eq_true] at hp
      simp only [hp, Bool.false_eq_true, if_false, List.head?_cons,
        Option.some.injEq] at hc
      subst hc
      exact hp

theorem dropWhile_eq_self_of_head (p : Char → Bool) (l : Str)
    (h : ∀ c, l.head? = some c → p c = false) : l.dropWhile p = l := by
  cases l with
  | nil => rfl
  | cons a cs =>
    rw [List.dropWhile_cons]
    simp [h a rfl]

theorem getLast?_dropWhile (p : Char → Bool) :
    ∀ l : Str, l.dropWhile p ≠ [] → (l.dropWhile p).getLast? = l.getLast? := by
  intro l
  induction l with
  | nil => intro h; simp at h
  | cons a cs ih =>
    intro h
    rw [List.dropWhile_cons] at h ⊢
    by_cases hp : p a = true
    · simp only [hp, if_true] at h ⊢
      have hcs : cs ≠ [] := by
        intro hh
        subst hh
        simp [List.dropWhile] at h
      cases cs with
      | nil => exact absurd rfl hcs
      | cons x xs =>
        rw [ih h, List.getLast?_cons_cons]
    · simp only [Bool.not_eq_true] at hp
      simp [hp]

theorem stripStr_chain {l : Str} (h : chainB pairOK l = true) :
    chainB pairOK (stripStr l) = true := by
  unfold stripStr
  exact chainB_reverse_symm pairOK_symm _
    (chainB_dropWhile _ _ (chainB_reverse_symm pairOK_symm _
      (chainB_dropWhile _ _ h)))

theorem stripStr_mem (l : Str) : ∀ c ∈ stripStr l, c ∈ l := by
  intro c hc
  unfold stripStr at hc
  rw [List.mem_reverse] at hc
  have hc2 : c ∈ (l.dropWhile isPyWs).reverse :=
    (List.dropWhile_sublist _).subset hc
  rw [List.mem_reverse] at hc2
  exact (List.dropWhile_sublist _).subset hc2

theorem strippedB_stripStr (l : Str) : strippedB (stripStr l) = true := by
  by_cases hnil : ((l.dropWhile isPyWs).reverse.dropWhile isPyWs) = []
  · have hempty : stripStr l = [] := by
      unfold stripStr
      rw [hnil]
      rfl
    rw [hempty]
    rfl
  · have hlast : (stripStr l).getLast? =
        ((l.dropWhile isPyWs).reverse.dropWhile isPyWs).head? := by
      unfold stripStr
      rw [List.getLast?_reverse]
    have hhead : (stripStr l).head? =
        ((l.dropWhile isPyWs).reverse.dropWhile isPyWs).getLast? := by
      unfold stripStr
      rw [List.head?_reverse]
    have hgl : ((l.dropWhile isPyWs).reverse.dropWhile isPyWs).getLast?
        = (l.dropWhile isPyWs).head? := by
      rw [getLast?_dropWhile _ _ hnil, List.getLast?_reverse]
    unfold strippedB
    rw [hhead, hlast, hgl]
    have h1 := head?_dropWhile_ws isPyWs l
    have h2 := head?_dropWhile_ws isPyWs (l.dropWhile isPyWs).reverse
    cases hA : (l.dropWhile isPyWs).head? with
    | none =>
      cases hB : ((l.dropWhile isPyWs).reverse.dropWhile isPyWs).head? with
      | none => rfl
      | some b => simp [h2 b hB]
    | some a =>
      cases hB : ((l.dropWhile isPyWs).reverse.dropWhile isPyWs).head? with
      | none => simp [h1 a hA]
      | some b => simp [h1 a hA, h2 b hB]

theorem stripStr_id {l : Str} (h : strippedB l = true) : stripStr l = l := by
  unfold strippedB at h
  simp only [Bool.and_eq_true] at h
  obtain ⟨h1, h2⟩ := h
  have hd : l.dropWhile isPyWs = l := by
    refine dropWhile_eq_self_of_head _ _ ?_
    intro c hc
    rw [hc] at h1
    simpa using h1
  unfold stripStr
  rw [hd]
  have hd2 : l.reverse.dropWhile isPyWs = l.reverse := by
    refine dropWhile_eq_self_of_head _ _ ?_
    intro c hc
    rw [List.head?_reverse] at hc
    rw [hc] at h2
    simpa using h2
  rw [hd2, List.reverse_reverse]

theorem replNbsp_no_nbsp (s : Str) : '\u00A0' ∉ replNbsp s := by
  intro h
  unfold replNbsp at h
  rw [List.mem_map] at h
  obtain ⟨x, _, hx⟩ := h
  by_cases hxx : x = '\u00A0'
  · rw [if_pos hxx] at hx
    exact absurd hx (by decide)
  · rw [if_neg hxx] at hx
    exact hxx hx

theorem replNbsp_id {l : Str} (h : '\u00A0' ∉ l) : replNbsp l = l := by
  induction l with
  | nil => rfl
  | cons a cs ih =>
    simp only [List.mem_cons, not_or] at h
    have ha : ¬(a = '\u00A0') := fun hh => h.1 hh.symm
    simp only [replNbsp, List.map_cons, if_neg ha, List.cons.injEq, true_and]
    exact ih h.2

theorem sub2go_id : ∀ l : Str, '\t' ∉ l → chainB pairOK l = true →
    sub2go false l = l := by
  intro l
  induction l with
  | nil => intro _ _; rfl
  | cons c cs ih =>
    intro ht h
    by_cases hc : isHWs c = true
    · have hcsp : c = ' ' := by
        simp only [isHWs, Bool.or_eq_true, decide_eq_true_eq] at hc
        rcases hc with h' | h'
        · exact h'
        · exact absurd (by simp [h']) ht
      have hhead : ∀ d, cs.head? = some d → isHWs d = false := by
        intro d hd
        have hp := chainB_head h hd
        subst hcsp
        by_contra hdd
        simp only [Bool.not_eq_false] at hdd
        simp [pairOK, hdd, (by decide : isHWs ' ' = true)] at hp
      simp only [sub2go, hc, if_true]
      rw [sub2go_true_eq_false hhead,
        ih (fun hm => ht (List.mem_cons_of_mem _ hm)) (chainB_tail h), hcsp]
      simp
    · simp only [Bool.not_eq_true] at hc
      simp only [sub2go, hc, Bool.false_eq_true, if_false, List.cons.injEq,
        true_and]
      exact ih (fun hm => ht (List.mem_cons_of_mem _ hm)) (chainB_tail h)

theorem clean_space_shape (s : Str) :
    chainB pairOK (clean_space s) = true ∧ strippedB (clean_space s) = true ∧
      '\t' ∉ clean_space s ∧ '\u00A0' ∉ clean_space s := by
  by_cases hs : s.isEmpty
  · unfold clean_space
    rw [if_pos hs]
    exact ⟨rfl, rfl, by simp, by simp⟩
  · unfold clean_space
    rw [if_neg hs]
    have hchain2 : chainB goodHH (sub2go false (replNbsp s)) = true :=
      sub2go_chain (replNbsp s) false
    have hchain3 : chainB pairOK (sub3go [] (sub2go false (replNbsp s))) = true :=
      sub3go_chain (sub2go false (replNbsp s)) [] (by simp) (by simpa using hchain2)
    rw [sub4go_id _ hchain3]
    refine ⟨stripStr_chain hchain3, strippedB_stripStr _, ?_, ?_⟩
    · intro hmem
      have h3 := stripStr_mem _ _ hmem
      rcases sub3go_mem _ [] _ h3 with h | h | h
      · exact absurd h (by decide)
      · simp at h
      · rcases sub2go_chars _ false _ h with h' | h'
        · exact absurd h' (by decide)
        · exact absurd h'.2 (by decide)
    · intro hmem
      have h3 := stripStr_mem _ _ hmem
      rcases sub3go_mem _ [] _ h3 with h | h | h
      · exact absurd h (by decide)
      · simp at h
      · rcases sub2go_chars _ false _ h with h' | h'
        · exact absurd h' (by decide)
        · exact replNbsp_no_nbsp s h'.1

theorem clean_space_fix {l : Str} (htab : '\t' ∉ l) (hnbsp : '\u00A0' ∉ l)
    (hchain : chainB pairOK l = true) (hstrip : strippedB l = true) :
    clean_space l = l := by
  by_cases hl : l.isEmpty
  · unfold clean_space
    rw [if_pos hl]
    cases l with
    | nil => rfl
    | cons a cs => simp at hl
  · unfold clean_space
    rw [if_neg hl, replNbsp_id hnbsp, sub2go_id l htab hchain]
    have h3 : sub3go [] l = l := by
      have := sub3go_id l [] (by simp) rfl (by simpa using hchain)
      simpa using this
    rw [h3, sub4go_id l hchain, stripStr_id hstrip]

/-! ## Substring correspondence -/

theorem startsWithL_iff (pat : Str) :
    ∀ l : Str, startsWithL pat l = true ↔ ∃ rest, l = pat ++ rest := by
  induction pat with
  | nil => intro l; simp [startsWithL]
  | cons p ps ih =>
    intro l
    cases l with
    | nil =>
      simp only [startsWithL, List.cons_append]
      constructor
      · intro h; exact absurd h (by simp)
      · rintro ⟨rest, hr⟩; exact absurd hr (by simp)
    | cons c cs =>
      simp only [startsWithL, Bool.and_eq_true, decide_eq_true_eq]
      constructor
      · rintro ⟨hpc, hs⟩
        obtain ⟨rest, hr⟩ := (ih cs).mp hs
        exact ⟨rest, by simp [← hpc, hr]⟩
      · rintro ⟨rest, hr⟩
        simp only [List.cons_append, List.cons.injEq] at hr
        exact ⟨hr.1.symm, (ih cs).mpr ⟨rest, hr.2⟩⟩

theorem hasSub_iff_occursIn (pat : Str) (hpat : pat ≠ []) :
    ∀ l : Str, hasSub pat l = true ↔ occursIn pat l := by
  intro l
  induction l with
  | nil =>
    constructor
    · intro h
      simp only [hasSub, List.isEmpty_iff] at h
      exact absurd h hpat
    · rintro ⟨pre, post, heq⟩
      exact absurd heq.symm (by simp [hpat])
  | cons c cs ih =>
    constructor
    · intro h
      simp only [hasSub, Bool.or_eq_true] at h
      rcases h with h | h
      · obtain ⟨rest, hr⟩ := (startsWithL_iff pat _).mp h
        exact ⟨[], rest, by simp [hr]⟩
      · obtain ⟨pre, post, heq⟩ := ih.mp h
        exact ⟨c :: pre, post, by simp [heq]⟩
    · rintro ⟨pre, post, heq⟩
      simp only [hasSub, Bool.or_eq_true]
      cases pre with
      | nil =>
        left
        refine (startsWithL_iff pat _).mpr ⟨post, ?_⟩
        simpa using heq
      | cons x pre' =>
        right
        have heq' : c = x ∧ cs = pre' ++ pat ++ post := by simpa using heq
        exact ih.mpr ⟨pre', post, heq'.2⟩

theorem no_double_nl_of_chain {l : Str} (h : chainB pairOK l = true) :
    hasSub ('\n' :: '\n' :: []) l = false := by
  by_contra hh
  simp only [Bool.not_eq_false] at hh
  obtain ⟨pre, post, heq⟩ := (hasSub_iff_occursIn _ (by simp) l).mp hh
  subst heq
  have h2 : chainB pairOK ('\n' :: '\n' :: post) = true :=
    @chainB_append_right pairOK pre ('\n' :: '\n' :: post) (by simpa using h)
  have h3 := chainB_head h2 (rfl : (('\n' :: post).head? = some '\n'))
  rw [pairOK_nl_ws_false (by decide)] at h3
  exact absurd h3 (by simp)

/-- Claim C8: the Text Normalizer is idempotent — for every string `s`,
`clean_space (clean_space s) = clean_space s`. -/
theorem clean_space_idem (s : Str) :
    clean_space (clean_space s) = clean_space s := by
  obtain ⟨hchain, hstrip, htab, hnbsp⟩ := clean_space_shape s
  exact clean_space_fix htab hnbsp hchain hstrip

/-- Claim C6 (counterexample): the claim says three or more consecutive blank
lines are collapsed to exactly one blank line.  On `"a\n\n\n\nb"` (three blank
lines between `a` and `b`) the code returns `"a\nb"` — no blank line at all —
not `"a\n\nb"`: the `\s*\n\s*` pass already merges every whitespace run
containing a newline into one single newline. -/
theorem clean_space_blank_lines_counterexample :
    clean_space ("a\n\n\n\nb".toList) = "a\nb".toList ∧
      clean_space ("a\n\n\n\nb".toList) ≠ "a\n\nb".toList := by
  constructor
  · rfl
  · decide

/-- Claim C6 (amended): for every input string (empty/None included, both
mapped to the empty list by `if not s`), `clean_space` is total and returns a
string in which non-breaking spaces have been eliminated, tabs have been
eliminated, no two adjacent horizontal-whitespace characters remain, no
whitespace character is adjacent to a newline — consequently no blank line
(`"\n\n"`) remains: whitespace around newlines, including any number of
consecutive blank lines, is collapsed to one single newline — and no leading
or trailing whitespace remains. -/
theorem clean_space_contract (s : Str) :
    clean_space ([] : Str) = [] ∧
      '\u00A0' ∉ clean_space s ∧
      '\t' ∉ clean_space s ∧
      chainB pairOK (clean_space s) = true ∧
      hasSub ('\n' :: '\n' :: []) (clean_space s) = false ∧
      strippedB (clean_space s) = true := by
  obtain ⟨hchain, hstrip, htab, hnbsp⟩ := clean_space_shape s
  exact ⟨rfl, hnbsp, htab, hchain, no_double_nl_of_chain hchain, hstrip⟩

/-! ## Header recognition (C3) -/

theorem startsWithL_append_sep {pat : Str} (hsp : ' ' ∉ pat) :
    ∀ (a t : Str), startsWithL pat (a ++ ' ' :: t) = startsWithL pat a := by
  induction pat with
  | nil => intro a t; rfl
  | cons p ps ih =>
    intro a t
    have hp : p ≠ ' ' := by
      intro hh
      exact hsp (by simp [hh])
    cases a with
    | nil =>
      simp only [List.nil_append, startsWithL]
      simp [hp]
    | cons x xs =>
      simp only [List.cons_append, startsWithL, List.append_eq]
      rw [ih (fun hm => hsp (List.mem_cons_of_mem _ hm)) xs t]

theorem hasSub_append_sep {pat : Str} (hne : pat ≠ []) (hsp : ' ' ∉ pat)
    (hbar : '|' ∉ pat) :
    ∀ (a b : Str),
      hasSub pat (a ++ ' ' :: '|' :: ' ' :: b) = (hasSub pat a || hasSub pat b) := by
  intro a
  induction a with
  | nil =>
    intro b
    obtain ⟨p, ps, rfl⟩ : ∃ p ps, pat = p :: ps := by
      cases pat with
      | nil => exact absurd rfl hne
      | cons p ps => exact ⟨p, ps, rfl⟩
    have hp1 : p ≠ ' ' := fun hh => hsp (by simp [hh])
    have hp2 : p ≠ '|' := fun hh => hbar (by simp [hh])
    simp only [List.nil_append, hasSub, startsWithL]
    simp [hp1, hp2]
  | cons x xs ih =>
    intro b
    simp only [List.cons_append, hasSub, List.append_eq]
    rw [show x :: (xs ++ ' ' :: '|' :: ' ' :: b) =
      (x :: xs) ++ ' ' :: ('|' :: ' ' :: b) from rfl]
    rw [startsWithL_append_sep hsp (x :: xs) ('|' :: ' ' :: b)]
    rw [ih b]
    simp only [hasSub, Bool.or_assoc]

theorem hasSub_joinBar {pat : Str} (hne : pat ≠ []) (hsp : ' ' ∉ pat)
    (hbar : '|' ∉ pat) :
    ∀ cells : List Str,
      hasSub pat (joinBar cells) = cells.any (fun c => hasSub pat c) := by
  intro cells
  induction cells with
  | nil =>
    simp only [joinBar, List.any_nil, hasSub]
    simpa using hne
  | cons x cs ih =>
    cases cs with
    | nil => simp [joinBar, List.any_cons]
    | cons y r =>
      simp only [joinBar, List.any_cons]
      rw [hasSub_append_sep hne hsp hbar, ih]
      simp [List.any_cons]

/-- Claim C3 (counterexample): the claim says the row
`["Aplic.","Mensagem","Cstat"]` is recognized as a header by the
applicability+message rule; `_guess_has_rv_header` rejects it — neither
"Mensagem" nor "Cstat" contains the substring "msg", and the header test
checks only the literal substrings "aplic"/"msg" and "descri"/"regra"
(it does not use the "cstat" alias of the column mapping). -/
theorem guess_header_counterexample :
    guess_has_rv_header
      ["Aplic.".toList, "Mensagem".toList, "Cstat".toList] = false := by decide

/-- Claim C3 (amended): a table row qualifies as a header exactly when,
case-insensitively, some cell contains the substring "aplic" and some cell
contains the substring "msg", or some cell contains "descri" and some cell
contains "regra"; the row `["Campo","Regra","Aplic.","Msg","Descrição"]` is
recognized as a header, but `["Aplic.","Mensagem","Cstat"]` is NOT (no cell
contains the substring "msg"). -/
theorem guess_header_iff :
    (∀ row : List Str,
      guess_has_rv_header row = true ↔
        (((∃ c ∈ row, occursIn ("aplic".toList) (lowerStr c)) ∧
            (∃ c ∈ row, occursIn ("msg".toList) (lowerStr c))) ∨
          ((∃ c ∈ row, occursIn ("descri".toList) (lowerStr c)) ∧
            (∃ c ∈ row, occursIn ("regra".toList) (lowerStr c))))) ∧
    guess_has_rv_header ["Campo".toList, "Regra".toList, "Aplic.".toList,
      "Msg".toList, "Descrição".toList] = true ∧
    guess_has_rv_header
      ["Aplic.".toList, "Mensagem".toList, "Cstat".toList] = false := by
  refine ⟨?_, by decide, by decide⟩
  intro row
  unfold guess_has_rv_header
  simp only [Bool.or_eq_true, Bool.and_eq_true]
  rw [hasSub_joinBar (by decide) (by decide) (by decide),
    hasSub_joinBar (by decide) (by decide) (by decide),
    hasSub_joinBar (by decide) (by decide) (by decide),
    hasSub_joinBar (by decide) (by decide) (by decide)]
  simp only [List.any_map, List.any_eq_true, Function.comp]
  simp only [hasSub_iff_occursIn ("aplic".toList) (by decide),
    hasSub_iff_occursIn ("msg".toList) (by decide),
    hasSub_iff_occursIn ("descri".toList) (by decide),
    hasSub_iff_occursIn ("regra".toList) (by decide)]

/-! ## Table path (C4, C9, C10) -/

theorem ne_nil_of_isEmpty_false {l : Str} (h : l.isEmpty = false) : l ≠ [] := by
  intro hnil
  subst hnil
  simp at h

theorem processRow_some {hi : HeaderIdx} {r : List Str} {x : RvRec}
    (h : processRow hi r = Except.ok (some x)) :
    (x.campo ≠ [] ∨ x.regra ≠ [] ∨ x.aplic ≠ [] ∨ x.msg ≠ [] ∨ x.descricao ≠ []) ∧
      3 ≤ (clean_space x.descricao).length := by
  unfold processRow at h
  simp only [] at h
  split at h
  case _ =>
    split at h
    case isTrue hg =>
      simp only [Except.ok.injEq, Option.some.injEq] at h
      subst h
      simp only [Bool.and_eq_true, Bool.or_eq_true, Bool.not_eq_true',
        decide_eq_true_eq] at hg
      refine ⟨?_, hg.2⟩
      rcases hg.1 with (((h' | h') | h') | h') | h'
      · exact Or.inl (ne_nil_of_isEmpty_false h')
      · exact Or.inr (Or.inl (ne_nil_of_isEmpty_false h'))
      · exact Or.inr (Or.inr (Or.inl (ne_nil_of_isEmpty_false h')))
      · exact Or.inr (Or.inr (Or.inr (Or.inl (ne_nil_of_isEmpty_false h'))))
      · exact Or.inr (Or.inr (Or.inr (Or.inr (ne_nil_of_isEmpty_false h'))))
    case isFalse => exact absurd h (by simp)
  case _ => exact absurd h (by simp)

theorem processRows_inv {hi : HeaderIdx} :
    ∀ (rs : List (List Str)) (l : List RvRec),
      processRows hi rs = Except.ok l →
      ∀ x ∈ l,
        (x.campo ≠ [] ∨ x.regra ≠ [] ∨ x.aplic ≠ [] ∨ x.msg ≠ [] ∨
            x.descricao ≠ []) ∧
          3 ≤ (clean_space x.descricao).length := by
  intro rs
  induction rs with
  | nil =>
    intro l h x hx
    simp only [processRows, Except.ok.injEq] at h
    subst h
    simp at hx
  | cons r rs ih =>
    intro l h x hx
    simp only [processRows] at h
    cases hp : processRow hi r with
    | error e => rw [hp] at h; simp at h
    | ok o =>
      rw [hp] at h
      cases hr : processRows hi rs with
      | error e => rw [hr] at h; simp at h
      | ok rest =>
        rw [hr] at h
        simp only [Except.ok.injEq] at h
        subst h
        cases o with
        | none => exact ih rest hr x hx
        | some y =>
          rcases List.mem_cons.mp hx with hxy | hxr
          · subst hxy
            exact processRow_some hp
          · exact ih rest hr x hxr

theorem parse_rv_table_small {tbl : List (List Str)} (h : tbl.length < 2) :
    parse_rv_table tbl = Except.ok [] := by
  unfold parse_rv_table
  rw [if_pos h]

theorem parse_rv_table_inv {tbl : List (List Str)} {l : List RvRec}
    (h : parse_rv_table tbl = Except.ok l) :
    ∀ x ∈ l,
      (x.campo ≠ [] ∨ x.regra ≠ [] ∨ x.aplic ≠ [] ∨ x.msg ≠ [] ∨
          x.descricao ≠ []) ∧
        3 ≤ (clean_space x.descricao).length := by
  intro x hx
  unfold parse_rv_table at h
  by_cases hlen : tbl.length < 2
  · rw [if_pos hlen] at h
    simp only [Except.ok.injEq] at h
    subst h
    simp at hx
  · rw [if_neg hlen] at h
    cases hf : (tbl.take 3).find? guess_has_rv_header with
    | none =>
      rw [hf] at h
      simp only [Except.ok.injEq] at h
      subst h
      simp at hx
    | some hrow =>
      rw [hf] at h
      exact processRows_inv _ _ h x hx

theorem parse_rv_tables_inv :
    ∀ (ts : List (List (List Str))) (l : List RvRec),
      parse_rv_tables ts = Except.ok l →
      ∀ x ∈ l,
        (x.campo ≠ [] ∨ x.regra ≠ [] ∨ x.aplic ≠ [] ∨ x.msg ≠ [] ∨
            x.descricao ≠ []) ∧
          3 ≤ (clean_space x.descricao).length := by
  intro ts
  induction ts with
  | nil =>
    intro l h x hx
    simp only [parse_rv_tables, Except.ok.injEq] at h
    subst h
    simp at hx
  | cons t ts ih =>
    intro l h x hx
    simp only [parse_rv_tables] at h
    cases ht : parse_rv_table t with
    | error e => rw [ht] at h; simp at h
    | ok a =>
      rw [ht] at h
      cases hts : parse_rv_tables ts with
      | error e => rw [hts] at h; simp at h
      | ok b =>
        rw [hts] at h
        simp only [Except.ok.injEq] at h
        subst h
        rcases List.mem_append.mp hx with hxa | hxb
        · exact parse_rv_table_inv ht x hxa
        · exact ih b hts x hxb

/-- Claim C9: every RuleRecord yielded by the Rule-Table Parser has at least
one non-empty field and a description whose normalized length is at least 3;
and any table with fewer than 2 rows contributes zero records. -/
theorem table_path_min_content :
    (∀ (ts : List (List (List Str))) (l : List RvRec),
      parse_rv_tables ts = Except.ok l →
      ∀ x ∈ l,
        (x.campo ≠ [] ∨ x.regra ≠ [] ∨ x.aplic ≠ [] ∨ x.msg ≠ [] ∨
            x.descricao ≠ []) ∧
          3 ≤ (clean_space x.descricao).length) ∧
    (∀ tbl : List (List Str), tbl.length < 2 →
      parse_rv_table tbl = Except.ok []) :=
  ⟨parse_rv_tables_inv, fun _ h => parse_rv_table_small h⟩

/-- Claim C9 (witness): the invariant evaluated on a concrete one-table
document, and the small-table clause on a one-row table. -/
theorem table_path_min_content_witness :
    ((⟨"B09".toList, "B09-20".toList, "Obrig.".toList, "656".toList,
        "Campo obrigatório".toList⟩ : RvRec).campo ≠ [] ∨
      (⟨"B09".toList, "B09-20".toList, "Obrig.".toList, "656".toList,
        "Campo obrigatório".toList⟩ : RvRec).regra ≠ [] ∨
      (⟨"B09".toList, "B09-20".toList, "Obrig.".toList, "656".toList,
        "Campo obrigatório".toList⟩ : RvRec).aplic ≠ [] ∨
      (⟨"B09".toList, "B09-20".toList, "Obrig.".toList, "656".toList,
        "Campo obrigatório".toList⟩ : RvRec).msg ≠ [] ∨
      (⟨"B09".toList, "B09-20".toList, "Obrig.".toList, "656".toList,
        "Campo obrigatório".toList⟩ : RvRec).descricao ≠ []) ∧
    3 ≤ (clean_space (⟨"B09".toList, "B09-20".toList, "Obrig.".toList,
      "656".toList, "Campo obrigatório".toList⟩ : RvRec).descricao).length ∧
    parse_rv_table [["só uma linha".toList]] = Except.ok [] := by
  have h := table_path_min_content
  have h1 := h.1
    [[["Campo".toList, "Regra".toList, "Aplic.".toList, "Msg".toList,
        "Descrição".toList],
      ["B09".toList, "B09-20".toList, "Obrig.".toList, "656".toList,
        "Campo obrigatório".toList]]]
    [⟨"B09".toList, "B09-20".toList, "Obrig.".toList, "656".toList,
      "Campo obrigatório".toList⟩]
    rfl
    ⟨"B09".toList, "B09-20".toList, "Obrig.".toList, "656".toList,
      "Campo obrigatório".toList⟩
    (List.mem_singleton.mpr rfl)
  exact ⟨h1.1, h1.2, h.2 [["só uma linha".toList]] (by decide)⟩

theorem find_idx_aux_congr {p q : Str → Bool} :
    ∀ (h : List Str) (i : Nat), (∀ c ∈ h, p c = q c) →
      find_idx_aux p h i = find_idx_aux q h i := by
  intro h
  induction h with
  | nil => intro i _; rfl
  | cons a hs ih =>
    intro i hpq
    simp only [find_idx_aux, hpq a (List.mem_cons_self _ _)]
    rw [ih (i + 1) (fun c hc => hpq c (List.mem_cons_of_mem _ hc))]

theorem find_idx_aux_isSome {p : Str → Bool} :
    ∀ (h : List Str) (i : Nat), (∃ c ∈ h, p c = true) →
      (find_idx_aux p h i).isSome = true := by
  intro h
  induction h with
  | nil => rintro i ⟨c, hc, _⟩; simp at hc
  | cons a hs ih =>
    rintro i ⟨c, hc, hp⟩
    simp only [find_idx_aux]
    by_cases ha : p a = true
    · simp [ha]
    · simp only [Bool.not_eq_true] at ha
      simp only [ha, Bool.false_eq_true, if_false]
      rcases List.mem_cons.mp hc with hca | hcs
      · subst hca; rw [hp] at ha; exact absurd ha (by simp)
      · exact ih (i + 1) ⟨c, hcs, hp⟩

theorem regra_campo_same_idx {hdr : List Str}
    (hno : ∀ c ∈ hdr,
      hasSub ("regra".toList) (lowerStr c) = false ∧
      hasSub ("rv".toList) (lowerStr c) = false ∧
      hasSub ("campo".toList) (lowerStr c) = false) :
    find_idx hdr regraNames =
        find_idx_aux (fun c => hasSub ("id".toList) (lowerStr c)) hdr 0 ∧
      find_idx hdr campoNames =
        find_idx_aux (fun c => hasSub ("id".toList) (lowerStr c)) hdr 0 := by
  constructor
  · refine find_idx_aux_congr hdr 0 ?_
    intro c hc
    obtain ⟨hA, hB, _⟩ := hno c hc
    simp only [regraNames, List.any_cons, List.any_nil, Bool.or_false]
    rw [hA, hB]
    simp
  · refine find_idx_aux_congr hdr 0 ?_
    intro c hc
    obtain ⟨_, _, hC⟩ := hno c hc
    simp only [campoNames, List.any_cons, List.any_nil, Bool.or_false]
    rw [hC]
    simp

theorem processRow_campo_eq_regra {hi : HeaderIdx} (hEq : hi.campo = hi.regra)
    {r : List Str} {x : RvRec} (h : processRow hi r = Except.ok (some x)) :
    x.campo = x.regra := by
  unfold processRow at h
  simp only [] at h
  rw [hEq] at h
  split at h
  case _ e1 e2 e3 e4 e5 =>
    split at h
    case isTrue hg =>
      simp only [Except.ok.injEq, Option.some.injEq] at h
      subst h
      have hv := e1.symm.trans e2
      simp only [Except.ok.injEq] at hv
      simpa using hv
    case isFalse => exact absurd h (by simp)
  case _ => exact absurd h (by simp)

theorem processRows_campo_eq_regra {hi : HeaderIdx} (hEq : hi.campo = hi.regra) :
    ∀ (rs : List (List Str)) (l : List RvRec),
      processRows hi rs = Except.ok l → ∀ x ∈ l, x.campo = x.regra := by
  intro rs
  induction rs with
  | nil =>
    intro l h x hx
    simp only [processRows, Except.ok.injEq] at h
    subst h
    simp at hx
  | cons r rs ih =>
    intro l h x hx
    simp only [processRows] at h
    cases hp : processRow hi r with
    | error e => rw [hp] at h; simp at h
    | ok o =>
      rw [hp] at h
      cases hr : processRows hi rs with
      | error e => rw [hr] at h; simp at h
      | ok rest =>
        rw [hr] at h
        simp only [Except.ok.injEq] at h
        subst h
        cases o with
        | none => exact ih rest hr x hx
        | some y =>
          rcases List.mem_cons.mp hx with hxy | hxr
          · subst hxy
            exact processRow_campo_eq_regra hEq hp
          · exact ih rest hr x hxr

/-- Claim C10 (implicit): when the identified header row (after cleaning) has
no cell containing "regra", "rv" or "campo" (lowercased) but has some cell
containing "id", the rule-id and field-code mappings both resolve to the
first "id" cell, so every record emitted from that table has field-code equal
to rule-id. -/
theorem id_alias_collision (tbl : List (List Str)) (hrow : List Str)
    (l : List RvRec)
    (hlen : ¬ tbl.length < 2)
    (hfind : (tbl.take 3).find? guess_has_rv_header = some hrow)
    (hno : ∀ c ∈ hrow.map clean_space,
      hasSub ("regra".toList) (lowerStr c) = false ∧
      hasSub ("rv".toList) (lowerStr c) = false ∧
      hasSub ("campo".toList) (lowerStr c) = false)
    (hid : ∃ c ∈ hrow.map clean_space, hasSub ("id".toList) (lowerStr c) = true)
    (hok : parse_rv_table tbl = Except.ok l) :
    find_idx (hrow.map clean_space) regraNames =
        find_idx (hrow.map clean_space) campoNames ∧
      find_idx (hrow.map clean_space) regraNames =
        find_idx_aux (fun c => hasSub ("id".toList) (lowerStr c))
          (hrow.map clean_space) 0 ∧
      (find_idx (hrow.map clean_space) regraNames).isSome = true ∧
      ∀ x ∈ l, x.campo = x.regra := by
  obtain ⟨h1, h2⟩ := regra_campo_same_idx hno
  refine ⟨h1.trans h2.symm, h1, ?_, ?_⟩
  · rw [h1]
    exact find_idx_aux_isSome _ 0 hid
  · unfold parse_rv_table at hok
    rw [if_neg hlen, hfind] at hok
    exact processRows_campo_eq_regra
      (show (headerIdxOf (hrow.map clean_space)).campo =
        (headerIdxOf (hrow.map clean_space)).regra from h2.trans h1.symm)
      _ _ hok

/-- Claim C10 (witness): a concrete table whose header is
`["Id","Aplic.","Msg","Descrição"]` — the rule-id and field-code columns both
resolve to column 0 and the emitted record has `campo = regra = "RV01"`. -/
theorem id_alias_collision_witness :
    find_idx (["Id".toList, "Aplic.".toList, "Msg".toList,
        "Descrição".toList].map clean_space) regraNames =
      find_idx (["Id".toList, "Aplic.".toList, "Msg".toList,
        "Descrição".toList].map clean_space) campoNames ∧
    ∀ x ∈ [(⟨"RV01".toList, "RV01".toList, "Obrig.".toList, "123".toList,
        "alguma descricao".toList⟩ : RvRec)], x.campo = x.regra := by
  have h := id_alias_collision
    [["Id".toList, "Aplic.".toList, "Msg".toList, "Descrição".toList],
     ["RV01".toList, "Obrig.".toList, "123".toList, "alguma descricao".toList]]
    ["Id".toList, "Aplic.".toList, "Msg".toList, "Descrição".toList]
    [⟨"RV01".toList, "RV01".toList, "Obrig.".toList, "123".toList,
      "alguma descricao".toList⟩]
    (by decide) rfl (by decide) (by decide) rfl
  exact ⟨h.1, h.2.2.2⟩

theorem getCell_spec {r : List Str} {i : Option Nat} {v : Str}
    (h : getCell (r.map clean_space ++ List.replicate 6 []) i = Except.ok v) :
    specGet (r.map clean_space ++ List.replicate (6 - r.length) []) i = v := by
  cases i with
  | none =>
    simp only [getCell, Except.ok.injEq] at h
    simpa [specGet] using h.symm
  | some j =>
    simp only [specGet]
    simp only [getCell] at h
    split at h
    case isTrue hj =>
      simp only [Except.ok.injEq] at h
      subst h
      rw [List.getD_eq_getElem?_getD]
      by_cases hjr : j < r.length
      · have hjm : j < (r.map clean_space).length := by simpa using hjr
        have h1 : (r.map clean_space ++
            List.replicate (6 - r.length) [])[j]? = (r.map clean_space)[j]? := by
          apply List.getElem?_append_left
          simpa using hjr
        have h2 : (r.map clean_space ++ List.replicate 6 []).get ⟨j, hj⟩ =
            (r.map clean_space).get ⟨j, hjm⟩ := by
          simp only [List.get_eq_getElem]
          apply List.getElem_append_left
        rw [h1, h2, List.getElem?_eq_getElem hjm]
        rfl
      · have hmlen : (r.map clean_space).length ≤ j := by
          simpa using Nat.le_of_not_lt hjr
        have hj2 : j - (r.map clean_space).length <
            (List.replicate 6 ([] : Str)).length := by
          rw [List.length_append] at hj
          simp only [List.length_replicate] at hj ⊢
          omega
        have h2 : (r.map clean_space ++ List.replicate 6 []).get ⟨j, hj⟩ =
            (List.replicate 6 ([] : Str)).get
              ⟨j - (r.map clean_space).length, hj2⟩ := by
          simp only [List.get_eq_getElem]
          exact List.getElem_append_right hmlen
        rw [h2]
        have hrep : (List.replicate 6 ([] : Str)).get
            ⟨j - (r.map clean_space).length, hj2⟩ = [] := by
          rw [List.get_eq_getElem, List.getElem_replicate]
        rw [hrep]
        have h1 : (r.map clean_space ++
            List.replicate (6 - r.length) [])[j]? =
            (List.replicate (6 - r.length) ([] : Str))[j - (r.map clean_space).length]? := by
          exact List.getElem?_append_right hmlen
        rw [h1, List.getElem?_replicate]
        split <;> rfl
    case isFalse => exact absurd h (by simp)

theorem processRow_spec {hi : HeaderIdx} {r : List Str} {o : Option RvRec}
    (h : processRow hi r = Except.ok o) : o = specRowOf hi r := by
  unfold processRow at h
  simp only [] at h
  split at h
  case _ e1 e2 e3 e4 e5 =>
    rename_i v1 v2 v3 v4 v5
    have g1 := getCell_spec e1
    have g2 := getCell_spec e2
    have g3 := getCell_spec e3
    have g4 := getCell_spec e4
    have g5 := getCell_spec e5
    have hs : specRowOf hi r =
        (if (!v1.isEmpty || !v2.isEmpty || !v3.isEmpty || !v4.isEmpty
              || !v5.isEmpty) && decide (3 ≤ (clean_space v5).length) then
          some ⟨v1, v2, v3, v4, v5⟩
        else none) := by
      unfold specRowOf
      simp only []
      rw [g1, g2, g3, g4, g5]
    rw [hs]
    split at h
    case isTrue hg =>
      simp only [Except.ok.injEq] at h
      rw [if_pos hg, ← h]
    case isFalse hg =>
      simp only [Except.ok.injEq] at h
      rw [if_neg hg, ← h]
  case _ => exact absurd h (by simp)

theorem processRows_filterMap {hi : HeaderIdx} :
    ∀ (rs : List (List Str)) (l : List RvRec),
      processRows hi rs = Except.ok l → l = rs.filterMap (specRowOf hi) := by
  intro rs
  induction rs with
  | nil =>
    intro l h
    simp only [processRows, Except.ok.injEq] at h
    subst h
    rfl
  | cons r rs ih =>
    intro l h
    simp only [processRows] at h
    cases hp : processRow hi r with
    | error e => rw [hp] at h; simp at h
    | ok o =>
      rw [hp] at h
      cases hr : processRows hi rs with
      | error e => rw [hr] at h; simp at h
      | ok rest =>
        rw [hr] at h
        simp only [Except.ok.injEq] at h
        subst h
        rw [List.filterMap_cons, ← processRow_spec hp, ← ih rest hr]
        cases o <;> rfl

/-- Claim C4 (counterexample): the claim says RuleRecords are produced
exactly from the rows after the identified header row, and never from the
header row itself.  In this table the header qualifies at row index 1, but
the row loop iterates `tbl[1:]` — every row after the FIRST row — so the
header row itself also produces a record (its description cell "Descrição"
passes the length-3 gate): the parse yields two records, the first one built
from the header row, where the claim predicts only the one data record. -/
theorem parse_rv_table_header_row_counterexample :
    parse_rv_table
      [["x".toList, [], []],
       ["Campo".toList, "Regra".toList, "Aplic.".toList, "Msg".toList,
        "Descrição".toList],
       ["B09".toList, "B09-20".toList, "Obrig.".toList, "656".toList,
        "Campo obrigatório".toList]] =
      Except.ok
        [⟨"Campo".toList, "Regra".toList, "Aplic.".toList, "Msg".toList,
          "Descrição".toList⟩,
         ⟨"B09".toList, "B09-20".toList, "Obrig.".toList, "656".toList,
          "Campo obrigatório".toList⟩] ∧
    ([(⟨"Campo".toList, "Regra".toList, "Aplic.".toList, "Msg".toList,
          "Descrição".toList⟩ : RvRec),
       ⟨"B09".toList, "B09-20".toList, "Obrig.".toList, "656".toList,
          "Campo obrigatório".toList⟩] : List RvRec) ≠
      [⟨"B09".toList, "B09-20".toList, "Obrig.".toList, "656".toList,
          "Campo obrigatório".toList⟩] :=
  ⟨rfl, by decide⟩

/-- Claim C4 (amended): for every table in which a header row is identified
within the first 3 rows, the records produced are exactly those of the rows
from index 1 onward — every row after the FIRST row, which coincides with
"the rows after the header row" only when the header is row 0 — each row
padded to at least 6 cells with empty strings, each mapped field extracted
by its HeaderMapping index (empty when unmapped, `IndexError` when the
mapped index falls outside the padded row — excluded here by the successful
return), the Text Normalizer applied to every field, and the row retained
exactly when some field is non-empty and the normalized description has
length at least 3 (`specRowOf` spells out this per-row contract in the
spec's own words). -/
theorem parse_rv_table_rows (tbl : List (List Str)) (hrow : List Str)
    (l : List RvRec)
    (hlen : ¬ tbl.length < 2)
    (hfind : (tbl.take 3).find? guess_has_rv_header = some hrow)
    (hok : parse_rv_table tbl = Except.ok l) :
    l = (tbl.drop 1).filterMap
      (specRowOf (headerIdxOf (hrow.map clean_space))) := by
  unfold parse_rv_table at hok
  rw [if_neg hlen, hfind] at hok
  exact processRows_filterMap _ _ hok

/-- Claim C4 (witness): the spec section 8 end-to-end example — header row
plus one data row — evaluated through the amended row contract. -/
theorem parse_rv_table_rows_witness :
    [(⟨"B09".toList, "B09-20".toList, "Obrig.".toList, "656".toList,
        "Campo obrigatório".toList⟩ : RvRec)] =
      ([["Campo".toList, "Regra".toList, "Aplic.".toList, "Msg".toList,
          "Descrição".toList],
        ["B09".toList, "B09-20".toList, "Obrig.".toList, "656".toList,
          "Campo obrigatório".toList]].drop 1).filterMap
        (specRowOf (headerIdxOf
          (["Campo".toList, "Regra".toList, "Aplic.".toList, "Msg".toList,
            "Descrição".toList].map clean_space))) := by
  exact parse_rv_table_rows
    [["Campo".toList, "Regra".toList, "Aplic.".toList, "Msg".toList,
        "Descrição".toList],
     ["B09".toList, "B09-20".toList, "Obrig.".toList, "656".toList,
        "Campo obrigatório".toList]]
    ["Campo".toList, "Regra".toList, "Aplic.".toList, "Msg".toList,
      "Descrição".toList]
    [⟨"B09".toList, "B09-20".toList, "Obrig.".toList, "656".toList,
      "Campo obrigatório".toList⟩]
    (by decide) rfl rfl

/-! ## Text path (C1, C5) -/

theorem tryRep_short {α : Type} {p : Char → Bool} {lo hi : Nat} {k : Str → Option α}
    {l : Str} (h : min hi (l.takeWhile p).length < lo) : tryRep p lo hi k l = none := by
  unfold tryRep
  simp only []
  rw [if_pos h]

theorem matchTok_single {tok : Str} (h : 2 ≤ tok.length) (c : Char) :
    matchTokWordAfter tok [c] = false := by
  match tok, h with
  | t1 :: t2 :: ts, _ =>
    unfold matchTokWordAfter
    by_cases hp : pyLower c = t1
    · simp [litCI, hp]
    · simp [litCI, hp]

theorem obrigSearch_single (c : Char) : obrigSearch [c] = false := by
  unfold obrigSearch
  simp only [bSearchAux, Bool.not_false, Bool.true_and, Bool.or_false]
  exact @matchTok_single ("obrig.".toList) (by decide) c

theorem facultSearch_single (c : Char) : facultSearch [c] = false := by
  unfold facultSearch
  simp only [bSearchAux, Bool.not_false, Bool.true_and, Bool.or_false]
  exact @matchTok_single ("facult.".toList) (by decide) c

theorem aplicOf_single (c : Char) : aplicOf [c] = none := by
  unfold aplicOf
  rw [obrigSearch_single c, facultSearch_single c]
  simp

theorem msgOf_single (c : Char) : msgOf [c] = [] := by
  unfold msgOf msgSearchAux
  have hshort : msgAt [c] = none := by
    apply tryRep_short
    have h1 : (([c].takeWhile Char.isDigit).length) ≤ 1 :=
      (List.takeWhile_sublist _).length_le
    omega
  rw [hshort]
  simp [msgSearchAux]

theorem regraAt_single (c : Char) : regraAt [c] = none := by
  unfold regraAt
  by_cases hu : Char.isUpper c = true
  · have htw : [c].takeWhile Char.isUpper = [c] := by
      simp [List.takeWhile, hu]
    unfold tryRep
    simp only [htw]
    simp [descTry, tryRep]
  · simp only [Bool.not_eq_true] at hu
    apply tryRep_short
    simp [List.takeWhile, hu]

theorem regraOf_single (c : Char) : regraOf [c] = [] := by
  unfold regraOf regraSearchAux
  rw [regraAt_single c]
  simp [regraSearchAux]

theorem processPara_single (c : Char) : processPara [c] = none := by
  unfold processPara
  simp only []
  rw [aplicOf_single c, msgOf_single c, regraOf_single c]
  simp

theorem rvSectionGroup1_shape {t body : Str} (h : rvSectionGroup1 t = some body) :
    ∃ c, body = [c] := by
  unfold rvSectionGroup1 at h
  cases h1 : litCI ("7.".toList) (t.dropWhile isPyWs) with
  | none => rw [h1] at h; simp at h
  | some r1 =>
  rw [h1, Option.some_bind] at h
  cases h2 : litCI ("regras".toList) (r1.dropWhile isPyWs) with
  | none => rw [h2] at h; simp at h
  | some r2 =>
  rw [h2, Option.some_bind] at h
  cases h3 : wsPlus r2 with
  | none => rw [h3] at h; simp at h
  | some r3 =>
  rw [h3, Option.some_bind] at h
  cases h4 : litCI ("de".toList) r3 with
  | none => rw [h4] at h; simp at h
  | some r4 =>
  rw [h4, Option.some_bind] at h
  cases h5 : wsPlus r4 with
  | none => rw [h5] at h; simp at h
  | some r5 =>
  rw [h5, Option.some_bind] at h
  cases h6 : litCI ("valida".toList) r5 with
  | none => rw [h6] at h; simp at h
  | some r6 =>
  rw [h6, Option.some_bind] at h
  cases r6 with
  | nil => simp at h
  | cons c cs =>
  simp only [] at h
  by_cases hc : (pyLower c = 'ç' || pyLower c = 'c') = true
  · rw [if_pos hc] at h
    cases h7 : litCI ("ão".toList) cs with
    | some r7 =>
      rw [h7] at h
      simp only [Option.some.injEq] at h
      exact ⟨c, h.symm⟩
    | none =>
      rw [h7] at h
      cases h8 : litCI ("ao".toList) cs with
      | some r8 =>
        rw [h8] at h
        simp only [Option.some.injEq] at h
        exact ⟨c, h.symm⟩
      | none => rw [h8] at h; simp at h
  · rw [if_neg hc] at h
    simp at h

theorem clean_space_single_wsnbsp {c : Char}
    (h : (c = ' ' || isPyWs c) = true) : clean_space [c] = [] := by
  simp only [Bool.or_eq_true, isPyWs, decide_eq_true_eq] at h
  have h7 : c = '\u00A0' ∨ c = ' ' ∨ c = '\t' ∨ c = '\n' ∨ c = '\r' ∨
      c = '\u000B' ∨ c = '\u000C' := by tauto
  rcases h7 with h7 | h7 | h7 | h7 | h7 | h7 | h7 <;> subst h7 <;> decide

theorem clean_space_single_nonws {c : Char} (h1 : ¬(c = ' '))
    (h2 : isPyWs c = false) : clean_space [c] = [c] := by
  have hH : isHWs c = false := by
    by_contra hh
    simp only [Bool.not_eq_false] at hh
    rw [isPyWs_of_isHWs hh] at h2
    exact absurd h2 (by simp)
  have hnl : c ≠ '\n' := ne_nl_of_nonws h2
  unfold clean_space
  rw [if_neg (by simp)]
  rw [show replNbsp [c] = [c] by simp [replNbsp, h1]]
  rw [show sub2go false [c] = [c] by simp [sub2go, hH]]
  rw [show sub3go [] [c] = [c] by simp [sub3go, h2, flushRun]]
  rw [show sub4go 0 [c] = [c] by simp [sub4go, hnl, flushN]]
  rw [show stripStr [c] = [c] by simp [stripStr, List.dropWhile, h2]]

theorem parse_rv_text_nil (t : Str) : parse_rv_text t = [] := by
  unfold parse_rv_text
  by_cases ht : t.isEmpty
  · rw [if_pos ht]
  · rw [if_neg ht]
    cases hr : rvSectionGroup1 t with
    | none => rfl
    | some body =>
      obtain ⟨c, hbody⟩ := rvSectionGroup1_shape hr
      subst hbody
      simp only []
      by_cases hnlc : c = '\n'
      · subst hnlc; decide
      · rw [show splitN2 [c] = [[c]] by simp [splitN2, sn2go, hnlc]]
        simp only [List.filterMap_cons, List.filterMap_nil]
        by_cases hw : (c = ' ' || isPyWs c) = true
        · rw [clean_space_single_wsnbsp hw]
          simp
        · simp only [Bool.or_eq_true, not_or, Bool.not_eq_true] at hw
          rw [clean_space_single_nonws (by simpa using hw.1) hw.2]
          rw [show ([c].isEmpty) = false from rfl]
          simp only [Bool.false_eq_true, if_false]
          rw [processPara_single c]

/-- Claim C1 (code bug): the Rule-Text Parser can never locate a section in
the middle of the document, and even when the header is at the very start it
parses the wrong body, so it returns the empty record list for EVERY input.
`RV_SECTION_RE` is compiled without `re.MULTILINE`, so its `^` anchors only
at position 0 — a header on any later line is never found; and because the
pattern contains the capturing groups `(ç|c)(ão|ao)`, `re.split` returns
those groups in the result list: `sec[1]`, used as the section body, is the
one-character group captured by `(ç|c)`, not the text after the header, and
a single letter never passes the paragraph gate. -/
theorem parse_rv_text_always_empty :
    (∀ t : Str, parse_rv_text t = []) ∧
    parse_rv_text
      ("Intro\n7. Regras de Validação\n\nObrig.x 123 Campo X".toList) = [] ∧
    rvSectionGroup1
      ("Intro\n7. Regras de Validação\n\nObrig.x 123 Campo X".toList) = none ∧
    rvSectionGroup1
      ("7. Regras de Validação\n\nObrig.x 123 Campo X".toList) = some ['ç'] :=
  ⟨parse_rv_text_nil, by decide, by decide, by decide⟩

theorem litCI_some_iff (tok : Str) :
    ∀ (l r : Str), litCI tok l = some r ↔ ∃ t, l = t ++ r ∧ lowerStr t = tok := by
  induction tok with
  | nil =>
    intro l r
    simp only [litCI, Option.some.injEq]
    constructor
    · intro h
      exact ⟨[], by simp [h], rfl⟩
    · rintro ⟨t, hl, ht⟩
      have ht0 : t = [] := by
        cases t with
        | nil => rfl
        | cons a as => simp [lowerStr] at ht
      subst ht0
      simpa using hl
  | cons p ps ih =>
    intro l r
    cases l with
    | nil =>
      simp only [litCI]
      constructor
      · intro h; simp at h
      · rintro ⟨t, hl, ht⟩
        have ht0 : t = [] := by
          cases t with
          | nil => rfl
          | cons a as => simp at hl
        subst ht0
        simp [lowerStr] at ht
    | cons c cs =>
      simp only [litCI]
      by_cases hpc : pyLower c = p
      · rw [if_pos hpc, ih cs r]
        constructor
        · rintro ⟨t, hcs, ht⟩
          refine ⟨c :: t, by simp [hcs], ?_⟩
          simp only [lowerStr, List.map_cons, List.cons.injEq]
          exact ⟨hpc, by simpa [lowerStr] using ht⟩
        · rintro ⟨t, hl, ht⟩
          cases t with
          | nil => simp [lowerStr] at ht
          | cons a as =>
            simp only [List.cons_append, List.cons.injEq] at hl
            obtain ⟨hca, hcs⟩ := hl
            subst hca
            simp only [lowerStr, List.map_cons, List.cons.injEq] at ht
            exact ⟨as, hcs, by simpa [lowerStr] using ht.2⟩
      · rw [if_neg hpc]
        constructor
        · intro h; simp at h
        · rintro ⟨t, hl, ht⟩
          cases t with
          | nil => simp [lowerStr] at ht
          | cons a as =>
            simp only [List.cons_append, List.cons.injEq] at hl
            simp only [lowerStr, List.map_cons, List.cons.injEq] at ht
            exact absurd (hl.1 ▸ ht.1) hpc

theorem matchTok_iff (tok : Str) (l : Str) :
    matchTokWordAfter tok l = true ↔
      ∃ t d post, l = t ++ d :: post ∧ lowerStr t = tok ∧
        isWordChar d = true := by
  unfold matchTokWordAfter
  cases hlit : litCI tok l with
  | none =>
    constructor
    · intro h; simp at h
    · rintro ⟨t, d, post, hl, ht, hd⟩
      have : litCI tok l = some (d :: post) :=
        (litCI_some_iff tok l (d :: post)).mpr ⟨t, hl, ht⟩
      rw [hlit] at this
      exact absurd this (by simp)
  | some r =>
    obtain ⟨t, hl, ht⟩ := (litCI_some_iff tok l r).mp hlit
    cases r with
    | nil =>
      constructor
      · intro h; simp at h
      · rintro ⟨t', d, post, hl', ht', hd⟩
        have h1 : litCI tok l = some (d :: post) :=
          (litCI_some_iff tok l (d :: post)).mpr ⟨t', hl', ht'⟩
        rw [hlit] at h1
        simp at h1
    | cons d post =>
      constructor
      · intro h
        exact ⟨t, d, post, hl, ht, h⟩
      · rintro ⟨t', d', post', hl', ht', hd'⟩
        have h1 : litCI tok l = some (d' :: post') :=
          (litCI_some_iff tok l (d' :: post')).mpr ⟨t', hl', ht'⟩
        rw [hlit] at h1
        simp only [Option.some.injEq, List.cons.injEq] at h1
        rw [h1.1]
        exact hd'

theorem getLast?_cons_isSome (c : Char) (l : Str) :
    ((c :: l).getLast?).isSome = true := by
  induction l generalizing c with
  | nil => rfl
  | cons x xs ih =>
    rw [List.getLast?_cons_cons]
    exact ih x

theorem bSearchAux_iff (tok : Str) :
    ∀ (l : Str) (prevW : Bool),
      bSearchAux tok prevW l = true ↔
        ∃ pre t d post, l = pre ++ t ++ d :: post ∧ lowerStr t = tok ∧
          isWordChar d = true ∧
          (match pre.getLast? with
           | some a => isWordChar a = false
           | none => prevW = false) := by
  intro l
  induction l with
  | nil =>
    intro prevW
    simp only [bSearchAux]
    constructor
    · intro h; simp at h
    · rintro ⟨pre, t, d, post, hl, _, _, _⟩
      exact absurd hl.symm (by simp)
  | cons c cs ih =>
    intro prevW
    simp only [bSearchAux, Bool.or_eq_true, Bool.and_eq_true, Bool.not_eq_true']
    rw [ih (isWordChar c), matchTok_iff]
    constructor
    · rintro (⟨hpw, t, d, post, hl, ht, hd⟩ | ⟨pre, t, d, post, hl, ht, hd, hpre⟩)
      · exact ⟨[], t, d, post, by simpa using hl, ht, hd, hpw⟩
      · refine ⟨c :: pre, t, d, post, by simp [hl], ht, hd, ?_⟩
        cases pre with
        | nil => simpa using hpre
        | cons x pre' =>
          rw [List.getLast?_cons_cons]
          exact hpre
    · rintro ⟨pre, t, d, post, hl, ht, hd, hpre⟩
      cases pre with
      | nil =>
        left
        exact ⟨by simpa using hpre, t, d, post, by simpa using hl, ht, hd⟩
      | cons x pre' =>
        right
        have hl' : c = x ∧ cs = pre' ++ t ++ d :: post := by simpa using hl
        refine ⟨pre', t, d, post, hl'.2, ht, hd, ?_⟩
        cases pre' with
        | nil =>
          have hx : isWordChar x = false := by simpa using hpre
          have hc : isWordChar c = false := by rw [hl'.1]; exact hx
          simpa using hc
        | cons y pre'' =>
          rw [List.getLast?_cons_cons] at hpre
          exact hpre

theorem obrigSearch_iff (p : Str) :
    obrigSearch p = true ↔
      ∃ pre t d post, p = pre ++ t ++ d :: post ∧
        lowerStr t = "obrig.".toList ∧ isWordChar d = true ∧
        (∀ a, pre.getLast? = some a → isWordChar a = false) := by
  unfold obrigSearch
  rw [bSearchAux_iff]
  constructor
  · rintro ⟨pre, t, d, post, h1, h2, h3, h4⟩
    refine ⟨pre, t, d, post, h1, h2, h3, ?_⟩
    intro a ha
    rw [ha] at h4
    exact h4
  · rintro ⟨pre, t, d, post, h1, h2, h3, h4⟩
    refine ⟨pre, t, d, post, h1, h2, h3, ?_⟩
    cases hp : pre.getLast? with
    | none => rfl
    | some a => exact h4 a hp

theorem facultSearch_iff (p : Str) :
    facultSearch p = true ↔
      ∃ pre t d post, p = pre ++ t ++ d :: post ∧
        lowerStr t = "facult.".toList ∧ isWordChar d = true ∧
        (∀ a, pre.getLast? = some a → isWordChar a = false) := by
  unfold facultSearch
  rw [bSearchAux_iff]
  constructor
  · rintro ⟨pre, t, d, post, h1, h2, h3, h4⟩
    refine ⟨pre, t, d, post, h1, h2, h3, ?_⟩
    intro a ha
    rw [ha] at h4
    exact h4
  · rintro ⟨pre, t, d, post, h1, h2, h3, h4⟩
    refine ⟨pre, t, d, post, h1, h2, h3, ?_⟩
    cases hp : pre.getLast? with
    | none => rfl
    | some a => exact h4 a hp

theorem aplicOf_cases (p : Str) :
    aplicOf p = none ∨ aplicOf p = some ("Obrig.".toList) ∨
      aplicOf p = some ("Facult.".toList) := by
  unfold aplicOf
  by_cases h1 : obrigSearch p = true
  · rw [if_pos h1]
    exact Or.inr (Or.inl rfl)
  · rw [if_neg h1]
    by_cases h2 : facultSearch p = true
    · rw [if_pos h2]
      exact Or.inr (Or.inr rfl)
    · rw [if_neg h2]
      exact Or.inl rfl

theorem isEmpty_false_of_ne_nil {l : Str} (h : l ≠ []) : l.isEmpty = false := by
  cases l with
  | nil => exact absurd rfl h
  | cons a as => rfl

theorem aplicOf_obrig_iff (p : Str) :
    aplicOf p = some ("Obrig.".toList) ↔ obrigSearch p = true := by
  unfold aplicOf
  by_cases h1 : obrigSearch p = true
  · simp [h1]
  · simp only [Bool.not_eq_true] at h1
    rw [h1]
    simp only [Bool.false_eq_true, if_false]
    constructor
    · intro hh
      by_cases h2 : facultSearch p = true
      · rw [if_pos h2] at hh
        simp only [Option.some.injEq] at hh
        exact absurd hh (by decide)
      · rw [if_neg h2] at hh
        exact absurd hh (by simp)
    · intro hh
      exact hh.elim

theorem aplicOf_facult_iff (p : Str) (hob : obrigSearch p = false) :
    aplicOf p = some ("Facult.".toList) ↔ facultSearch p = true := by
  unfold aplicOf
  rw [hob]
  simp only [Bool.false_eq_true, if_false]
  by_cases h2 : facultSearch p = true
  · simp [h2]
  · simp only [Bool.not_eq_true] at h2
    rw [h2]
    simp only [Bool.false_eq_true, if_false]
    constructor
    · intro hh
      exact absurd hh (by simp)
    · intro hh
      exact hh.elim

theorem aplicOf_none_iff (p : Str) :
    aplicOf p = none ↔ obrigSearch p = false ∧ facultSearch p = false := by
  unfold aplicOf
  by_cases h1 : obrigSearch p = true
  · simp [h1]
  · simp only [Bool.not_eq_true] at h1
    by_cases h2 : facultSearch p = true
    · simp [h1, h2]
    · simp only [Bool.not_eq_true] at h2
      simp [h1, h2]

/-- Claim C5 (amended): for every cleaned paragraph, applicability is set to
"Obrig." exactly when the paragraph contains, case-insensitively, the token
"Obrig." preceded by no word character and followed IMMEDIATELY by a word
character (the trailing `\b` of `\bObrig\.\b` sits after the non-word "."
and therefore holds only before a word character — "Obrig." followed by a
space or end of text is NOT detected); otherwise to "Facult." under the
analogous condition; otherwise left unset.  A paragraph produces a
RuleRecord exactly when its derived description is non-empty and at least
one of applicability, message code, or rule-id was detected; every emitted
record has a non-empty description and a non-empty applicability, message or
rule-id field. -/
theorem processPara_contract (p : Str) :
    (aplicOf p = some ("Obrig.".toList) ↔
      ∃ pre t d post, p = pre ++ t ++ d :: post ∧
        lowerStr t = "obrig.".toList ∧ isWordChar d = true ∧
        (∀ a, pre.getLast? = some a → isWordChar a = false)) ∧
    (obrigSearch p = false →
      (aplicOf p = some ("Facult.".toList) ↔
        ∃ pre t d post, p = pre ++ t ++ d :: post ∧
          lowerStr t = "facult.".toList ∧ isWordChar d = true ∧
          (∀ a, pre.getLast? = some a → isWordChar a = false))) ∧
    (aplicOf p = none ↔ obrigSearch p = false ∧ facultSearch p = false) ∧
    ((processPara p).isSome = true ↔
      descOf p ≠ [] ∧
        (aplicOf p ≠ none ∨ msgOf p ≠ [] ∨ regraOf p ≠ [])) ∧
    (∀ x, processPara p = some x →
      x.descricao ≠ [] ∧ (x.aplic ≠ [] ∨ x.msg ≠ [] ∨ x.regra ≠ [])) := by
  refine ⟨?_, ?_, aplicOf_none_iff p, ?_, ?_⟩
  · rw [aplicOf_obrig_iff, obrigSearch_iff]
  · intro hob
    rw [aplicOf_facult_iff p hob, facultSearch_iff]
  · unfold processPara
    simp only []
    by_cases hg : (!(descOf p).isEmpty &&
        ((aplicOf p).isSome || !(msgOf p).isEmpty || !(regraOf p).isEmpty)) = true
    · rw [if_pos hg]
      simp only [Option.isSome_some, true_iff]
      simp only [Bool.and_eq_true, Bool.or_eq_true, Bool.not_eq_true'] at hg
      obtain ⟨hd, hrest⟩ := hg
      refine ⟨ne_nil_of_isEmpty_false hd, ?_⟩
      rcases hrest with (h | h) | h
      · exact Or.inl (Option.ne_none_iff_isSome.mpr h)
      · exact Or.inr (Or.inl (ne_nil_of_isEmpty_false h))
      · exact Or.inr (Or.inr (ne_nil_of_isEmpty_false h))
    · rw [if_neg hg]
      simp only [Option.isSome_none, Bool.false_eq_true, false_iff]
      rintro ⟨hd, hrest⟩
      apply hg
      simp only [Bool.and_eq_true, Bool.or_eq_true, Bool.not_eq_true']
      refine ⟨isEmpty_false_of_ne_nil hd, ?_⟩
      rcases hrest with h | h | h
      · exact Or.inl (Or.inl (Option.ne_none_iff_isSome.mp h))
      · exact Or.inl (Or.inr (isEmpty_false_of_ne_nil h))
      · exact Or.inr (isEmpty_false_of_ne_nil h)
  · intro x hx
    unfold processPara at hx
    simp only [] at hx
    split at hx
    case isFalse => exact absurd hx (by simp)
    case isTrue hg =>
      simp only [Option.some.injEq] at hx
      subst hx
      simp only [Bool.and_eq_true, Bool.or_eq_true, Bool.not_eq_true'] at hg
      obtain ⟨hd, hrest⟩ := hg
      refine ⟨ne_nil_of_isEmpty_false hd, ?_⟩
      rcases hrest with (h | h) | h
      · left
        rcases aplicOf_cases p with hc | hc | hc
        · rw [hc] at h
          simp at h
        · simp [hc]
        · simp [hc]
      · exact Or.inr (Or.inl (ne_nil_of_isEmpty_false h))
      · exact Or.inr (Or.inr (ne_nil_of_isEmpty_false h))

/-- Claim C5 (counterexample): the paragraph "Obrig. 123 teste" contains the
literal token "Obrig.", yet the emitted RuleRecord has applicability "" —
not "Obrig." — because `\bObrig\.\b` only matches when a word character
follows the period immediately (after the non-word ".", `\b` holds only
before a word character), and here a space follows. -/
theorem processPara_obrig_counterexample :
    hasSub ("Obrig.".toList) ("Obrig. 123 teste".toList) = true ∧
    processPara ("Obrig. 123 teste".toList) =
      some ⟨[], [], [], "123".toList, "123 teste".toList⟩ := by decide

/-- Claim C5 (witness): the paragraph "Facult.x 123 ok" (word character
right after the period) exercises the Facult branch and the emission gate. -/
theorem processPara_contract_witness :
    aplicOf ("Facult.x 123 ok".toList) = some ("Facult.".toList) ∧
    ("x 123 ok".toList : Str) ≠ [] ∧
    (("Facult.".toList : Str) ≠ [] ∨ ("123".toList : Str) ≠ [] ∨
      ([] : Str) ≠ []) := by
  have hc := processPara_contract ("Facult.x 123 ok".toList)
  have h2 := (hc.2.1 (by decide)).mpr
    ⟨[], "Facult.".toList, 'x', " 123 ok".toList, by decide, by decide,
      by decide, by intro a ha; simp at ha⟩
  have h5 := hc.2.2.2.2
    ⟨[], [], "Facult.".toList, "123".toList, "x 123 ok".toList⟩ (by decide)
  exact ⟨h2, h5.1, h5.2⟩

/-! ## Claim C7: Version/Schedule Extractor postcondition -/

/-- Claim C7: for every document text, the returned version is the last
version label matched by the version-line shape among the (stripped) first
120 lines following the first `Controle de Versões` header, and is unset
when no header exists or no line matches; among all `dd/mm/yyyy` dates found
in the first 250 lines following the first
`Histórico de Alterações / Cronograma` header, when at least 2 dates exist
the staging date is the second-to-last and the production date is the last,
and when fewer than 2 exist (or no header exists) both are unset.  The
version clause never constrains the date results and vice versa: the two
scans are independent. -/
theorem extract_versions_block_spec (text : Str) :
    (searchTail controlVerAt text = none →
      (extract_versions_block text).1 = none) ∧
    (∀ tail, searchTail controlVerAt text = some tail →
      (extract_versions_block text).1 =
        (((splitLinesPy tail).take 120).filterMap
          (fun ln => versaoLineMatch (stripStr ln))).getLast?) ∧
    (searchTail histAt text = none →
      (extract_versions_block text).2.1 = none ∧
      (extract_versions_block text).2.2 = none) ∧
    (∀ tail, searchTail histAt text = some tail →
      ((findDates (joinNL ((splitLinesPy tail).take 250))).length < 2 →
        (extract_versions_block text).2.1 = none ∧
        (extract_versions_block text).2.2 = none) ∧
      (2 ≤ (findDates (joinNL ((splitLinesPy tail).take 250))).length →
        (extract_versions_block text).2.1 =
          (findDates (joinNL ((splitLinesPy tail).take 250)))[
            (findDates (joinNL ((splitLinesPy tail).take 250))).length - 2]? ∧
        (extract_versions_block text).2.2 =
          (findDates (joinNL ((splitLinesPy tail).take 250))).getLast?)) := by
  refine ⟨?_, ?_, ?_, ?_⟩
  · intro h
    unfold extract_versions_block
    simp only [h]
    cases hh : searchTail histAt text with
    | none => rfl
    | some tail =>
      simp only []
      split <;> rfl
  · intro tail ht
    unfold extract_versions_block
    simp only [ht]
    cases hh : searchTail histAt text with
    | none => rfl
    | some tail2 =>
      simp only []
      split <;> rfl
  · intro h
    unfold extract_versions_block
    simp only [h]
    exact ⟨trivial, trivial⟩
  · intro tail ht
    unfold extract_versions_block
    simp only [ht]
    constructor
    · intro hlt
      rw [if_neg (Nat.not_le.mpr hlt)]
      exact ⟨rfl, rfl⟩
    · intro hge
      rw [if_pos hge]
      exact ⟨rfl, rfl⟩

/-- Claim C7 (witness): the spec section 8 example — a version block listing
1.00 then 1.20, and a schedule block with dates 01/03/2025, 15/06/2025,
01/07/2025 — yields version 1.20, staging 15/06/2025, production
01/07/2025. -/
theorem extract_versions_block_spec_witness :
    (extract_versions_block
      ("Controle de Versões\n1.00 01/2025 a\n1.20 06/2025 b\nHistórico de Alterações / Cronograma\n01/03/2025 x\n15/06/2025 y\n01/07/2025 z".toList)).1
        = some ("1.20".toList) ∧
    (extract_versions_block
      ("Controle de Versões\n1.00 01/2025 a\n1.20 06/2025 b\nHistórico de Alterações / Cronograma\n01/03/2025 x\n15/06/2025 y\n01/07/2025 z".toList)).2.1
        = some ("15/06/2025".toList) ∧
    (extract_versions_block
      ("Controle de Versões\n1.00 01/2025 a\n1.20 06/2025 b\nHistórico de Alterações / Cronograma\n01/03/2025 x\n15/06/2025 y\n01/07/2025 z".toList)).2.2
        = some ("01/07/2025".toList) := by
  have h := extract_versions_block_spec
    ("Controle de Versões\n1.00 01/2025 a\n1.20 06/2025 b\nHistórico de Alterações / Cronograma\n01/03/2025 x\n15/06/2025 y\n01/07/2025 z".toList)
  have hv := h.2.1
    ("\n1.00 01/2025 a\n1.20 06/2025 b\nHistórico de Alterações / Cronograma\n01/03/2025 x\n15/06/2025 y\n01/07/2025 z".toList)
    (by decide)
  have hd := (h.2.2.2
    ("\n01/03/2025 x\n15/06/2025 y\n01/07/2025 z".toList)
    (by decide)).2 (by decide)
  exact ⟨hv.trans (by decide), hd.1.trans (by decide), hd.2.trans (by decide)⟩

/-! ## Claim C2: orchestration output shape -/

/-- Claim C2: for every table-extraction result, text, title and publication
date, the table path is attempted first and the text path is consulted only
when the table path yields zero records, never merged (when the table path
yields records, the output is exactly their image under the per-record row
builder); when both paths yield zero records the output is exactly one
metadata row with all rule fields unset; when the table path yields N >= 1
records the output has exactly N rows; and every output row carries the
given title, the extracted version, the given publication date, and the
extracted staging and production dates. -/
theorem extract_rules_from_pdf_shape
    (tablesRes : Except Unit (List (List (List Str))))
    (text nt_titulo : Str) (publicada_em : Option Str) (trvs : List RvRec)
    (htrvs : (match tablesRes with
      | Except.error _ => ([] : List RvRec)
      | Except.ok ts =>
        match parse_rv_tables ts with
        | Except.error _ => []
        | Except.ok l => l) = trvs) :
    (trvs = [] →
      extract_rules_from_pdf tablesRes text nt_titulo publicada_em =
        [⟨nt_titulo, (extract_versions_block text).1, publicada_em,
          (extract_versions_block text).2.1, (extract_versions_block text).2.2,
          none, none, none, none, none, none⟩]) ∧
    (trvs ≠ [] →
      extract_rules_from_pdf tablesRes text nt_titulo publicada_em =
        trvs.map (fun rv =>
          ⟨nt_titulo, (extract_versions_block text).1, publicada_em,
            (extract_versions_block text).2.1, (extract_versions_block text).2.2,
            none, some (clean_space rv.campo), some (clean_space rv.regra),
            some (clean_space rv.aplic), some (clean_space rv.msg),
            some (clean_space rv.descricao)⟩) ∧
      (extract_rules_from_pdf tablesRes text nt_titulo publicada_em).length =
        trvs.length) ∧
    (∀ row ∈ extract_rules_from_pdf tablesRes text nt_titulo publicada_em,
      row.nt_titulo = nt_titulo ∧
      row.nt_versao = (extract_versions_block text).1 ∧
      row.publicada_em = publicada_em ∧
      row.implantacao_homolog = (extract_versions_block text).2.1 ∧
      row.implantacao_producao = (extract_versions_block text).2.2) := by
  have hmain : extract_rules_from_pdf tablesRes text nt_titulo publicada_em =
      (if trvs.isEmpty then
        [⟨nt_titulo, (extract_versions_block text).1, publicada_em,
          (extract_versions_block text).2.1, (extract_versions_block text).2.2,
          none, none, none, none, none, none⟩]
      else
        trvs.map (fun rv =>
          ⟨nt_titulo, (extract_versions_block text).1, publicada_em,
            (extract_versions_block text).2.1, (extract_versions_block text).2.2,
            none, some (clean_space rv.campo), some (clean_space rv.regra),
            some (clean_space rv.aplic), some (clean_space rv.msg),
            some (clean_space rv.descricao)⟩)) := by
    unfold extract_rules_from_pdf
    simp only [] at htrvs ⊢
    rw [htrvs]
    cases trvs with
    | nil =>
      simp only [List.isEmpty, if_true]
      rw [parse_rv_text_nil]
      rfl
    | cons a l =>
      simp only [List.isEmpty]
      rfl
  refine ⟨?_, ?_, ?_⟩
  · intro h
    subst h
    simpa using hmain
  · intro h
    have hne : trvs.isEmpty = false := by
      cases trvs with
      | nil => exact absurd rfl h
      | cons a l => rfl
    rw [hmain, if_neg (by simp [hne])]
    exact ⟨rfl, by simp⟩
  · intro row hrow
    rw [hmain] at hrow
    by_cases he : trvs.isEmpty
    · rw [if_pos he] at hrow
      simp only [List.mem_singleton] at hrow
      subst hrow
      exact ⟨rfl, rfl, rfl, rfl, rfl⟩
    · rw [if_neg he] at hrow
      simp only [List.mem_map] at hrow
      obtain ⟨rv, _, hrv⟩ := hrow
      subst hrv
      exact ⟨rfl, rfl, rfl, rfl, rfl⟩

/-- Claim C2 (witness): a one-table document whose single data row yields one
record produces exactly one output row carrying the title, the publication
date, the (absent) version and dates, and the record fields. -/
theorem extract_rules_from_pdf_shape_witness :
    extract_rules_from_pdf
      (Except.ok [[["Campo".toList, "Regra".toList, "Aplic.".toList,
                    "Msg".toList, "Descrição".toList],
                   ["cProd".toList, "B09".toList, "Obrig.".toList,
                    "389".toList, "Informar o código do produto".toList]]])
      [] ("NT 2025.001".toList) (some ("01/01/2025".toList)) =
      [⟨"NT 2025.001".toList, none, some ("01/01/2025".toList), none, none,
        none, some ("cProd".toList), some ("B09".toList),
        some ("Obrig.".toList), some ("389".toList),
        some ("Informar o código do produto".toList)⟩] ∧
    (extract_rules_from_pdf
      (Except.ok [[["Campo".toList, "Regra".toList, "Aplic.".toList,
                    "Msg".toList, "Descrição".toList],
                   ["cProd".toList, "B09".toList, "Obrig.".toList,
                    "389".toList, "Informar o código do produto".toList]]])
      [] ("NT 2025.001".toList) (some ("01/01/2025".toList))).length = 1 := by
  have h := (extract_rules_from_pdf_shape
    (Except.ok [[["Campo".toList, "Regra".toList, "Aplic.".toList,
                  "Msg".toList, "Descrição".toList],
                 ["cProd".toList, "B09".toList, "Obrig.".toList,
                  "389".toList, "Informar o código do produto".toList]]])
    [] ("NT 2025.001".toList) (some ("01/01/2025".toList))
    [⟨"cProd".toList, "B09".toList, "Obrig.".toList, "389".toList,
      "Informar o código do produto".toList⟩]
    (by decide)).2.1 (by decide)
  exact ⟨h.1.trans (by decide), h.2.trans (by decide)⟩
